import Mathlib

/-!
# Verification of the Frog-language code generator (`compiler.py`, `Envorment.py`)

A shallow embedding of the code generator and its scoped symbol table.
Python mutation is modelled by explicit state passing (`CState`), Python
exceptions by `Except PyErr`, and the llvmlite IR builder by a list of
basic blocks with an insertion cursor.  Recursion over the AST uses an
explicit fuel parameter so that all functions are structurally recursive
and evaluate by kernel reduction; fuel exhaustion is a distinguished
error that no theorem below ever relies on.

llvmlite builder semantics mirrored here:
* terminator-emitting methods (`ret`, `branch`, `cbranch`) assert that the
  current block is not already terminated;
* non-terminator instructions append at the cursor without such a check;
* `append_basic_block` on a builder requires a current block (to find the
  enclosing function); `IRBuilder()` with no block raises on any use;
* `Block.delete()` removes the block from its function; we model it with
  a `deleted` flag so deleted blocks stay addressable (as the Python
  object does) while being excluded from the final module;
* `GlobalVariable.type` is a pointer to the declared type (relevant for
  the `true`/`false` builtin bindings).
-/

namespace Frog

/-- LLVM-style IR types, mirroring `compiler.py`'s `type_map` and the
llvmlite types the generator manipulates. -/
inductive IRType where
  | i32
  | f32
  | i1
  | i8
  | void
  | ptr (t : IRType)
  | arr (elt : IRType) (n : Nat)
  deriving DecidableEq, Repr

/-- `Compiler.type_map`: source type names to IR types; absent keys model
a Python `KeyError` at the call site. -/
def typeMap : String → Option IRType
  | "int" => some .i32
  | "float" => some .f32
  | "bool" => some .i1
  | "void" => some .void
  | "str" => some (.ptr .i8)
  | _ => none

/-- IR values.  `pynone` models the Python value `None` (the generator
returns `(None, None)` from an infix expression with no matching case).
`loadRes` keeps its pointer operand because `builtin_printf` inspects
whether its first argument is a load instruction and takes its operand. -/
inductive Value where
  | constI (t : IRType) (n : Int)
  | constF (x : Int)
  | reg (n : Nat)
  | loadRes (n : Nat) (p : Value)
  | globalRef (name : String)
  | argRef (fn : String) (i : Nat)
  | pynone
  deriving DecidableEq, Repr

/-- Emitted IR instructions, with just enough operand structure for the
claims (branch targets are block ids, stores/loads carry operands). -/
inductive Instr where
  | alloca (res : Nat) (t : IRType)
  | store (v : Value) (p : Value)
  | load (res : Nat) (p : Value)
  | arith (op : String) (res : Nat) (l r : Value)
  | icmp (op : String) (res : Nat) (l r : Value)
  | fcmp (op : String) (res : Nat) (l r : Value)
  | sitofp (res : Nat) (v : Value)
  | fptosi (res : Nat) (v : Value)
  | bitcast (res : Nat) (v : Value)
  | callI (res : Nat) (fn : Value) (args : List Value)
  | ret (v : Value)
  | br (target : Nat)
  | cbr (cond : Value) (ifTrue ifFalse : Nat)
  deriving DecidableEq, Repr

/-- Terminator instructions: return, unconditional and conditional branch. -/
def Instr.isTerm : Instr → Bool
  | .ret _ => true
  | .br _ => true
  | .cbr _ _ _ => true
  | _ => false

/-- `Environment` from `Envorment.py`: a record list plus optional parent. -/
inductive Env where
  | mk (records : List (String × Value × IRType)) (parent : Option Env)

def Env.records : Env → List (String × Value × IRType)
  | .mk r _ => r

def Env.parent : Env → Option Env
  | .mk _ p => p

/-- Update an association list in place (Python dict assignment preserves
the position of an existing key and appends new keys). -/
def updateRecords (recs : List (String × Value × IRType)) (name : String)
    (v : Value) (t : IRType) : List (String × Value × IRType) :=
  match recs with
  | [] => [(name, v, t)]
  | (n, b) :: rest =>
    if n = name then (name, v, t) :: rest else (n, b) :: updateRecords rest name v t

/-- `Environment.define`: insert/overwrite in the current scope only. -/
def Env.define : Env → String → Value → IRType → Env
  | .mk recs p, name, v, t => .mk (updateRecords recs name v t) p

/-- Dictionary lookup in one scope's record list. -/
def lookupRecords : List (String × Value × IRType) → String → Option (Value × IRType)
  | [], _ => none
  | (n, b) :: rest, name => if n = name then some b else lookupRecords rest name

/-- `Environment.lookup` via `__resolve`: current scope first, then the
parent chain; `none` when no ancestor has the name. -/
def Env.lookup : Env → String → Option (Value × IRType)
  | .mk recs none, name => lookupRecords recs name
  | .mk recs (some parentEnv), name =>
    match lookupRecords recs name with
    | some b => some b
    | none => parentEnv.lookup name

/-- Whether any scope of the chain has a binding for `name`. -/
def Env.containsName : Env → String → Bool
  | .mk recs none, name => (lookupRecords recs name).isSome
  | .mk recs (some parentEnv), name =>
    (lookupRecords recs name).isSome || parentEnv.containsName name

/-- A basic block: id, name, owning function, instruction list, and a
flag recording that `Block.delete()` was called on it. -/
structure BBlock where
  bid : Nat
  name : String
  fn : String
  instrs : List Instr
  deleted : Bool
  deriving DecidableEq, Repr

/-- llvmlite `block.is_terminated`: a terminator has been emitted. -/
def BBlock.isTerminated (b : BBlock) : Bool := b.instrs.any Instr.isTerm

/-- Python exceptions the generator can raise (modelled, not caught). -/
inductive PyErr where
  | typeError
  | indexError
  | keyError
  | attrError
  | assertionError
  | fuelOut
  deriving DecidableEq, Repr

/-- The compiler's explicit state: module contents (blocks, function and
global names), insertion cursor, block-name counter, scope chain, error
list, break/continue target stacks (head = top, matching Python's
`list[-1]`/`pop()`), captured stdout, and fresh-id counters. -/
structure CState where
  blocks : List BBlock
  funcs : List String
  globals : List String
  cur : Option Nat
  counter : Nat
  env : Env
  errors : List String
  breakpoints : List Nat
  continues : List Nat
  output : List String
  nextReg : Nat
  nextBid : Nat

def findBlockIn : List BBlock → Nat → Option BBlock
  | [], _ => none
  | b :: rest, bid => if b.bid = bid then some b else findBlockIn rest bid

def findBlock (s : CState) (bid : Nat) : Option BBlock :=
  findBlockIn s.blocks bid

def appendInstr (s : CState) (bid : Nat) (i : Instr) : CState :=
  { s with blocks := s.blocks.map (fun b =>
      if b.bid = bid then { b with instrs := b.instrs ++ [i] } else b) }

/-- The instruction list of block `bid` (empty if the id is unknown). -/
def blockInstrs (s : CState) (bid : Nat) : List Instr :=
  match findBlock s bid with
  | some b => b.instrs
  | none => []

/-- Emit a non-terminator at the cursor; with no current block the Python
builder raises `AttributeError`. -/
def emit (i : Instr) (s : CState) : Except PyErr CState :=
  match s.cur with
  | none => .error .attrError
  | some bid => .ok (appendInstr s bid i)

def curBlock (s : CState) : Option BBlock := s.cur.bind (findBlock s)

def curTerminated (s : CState) : Bool :=
  match curBlock s with
  | some b => b.isTerminated
  | none => false

/-- Emit a terminator: llvmlite's `_set_terminator` asserts the current
block is not already terminated. -/
def emitTerm (i : Instr) (s : CState) : Except PyErr CState :=
  match s.cur with
  | none => .error .attrError
  | some bid =>
    match findBlock s bid with
    | none => .error .attrError
    | some b =>
      if b.isTerminated then .error .assertionError
      else .ok (appendInstr s bid i)

/-- `Function.append_basic_block`: append a fresh block to function `fn`. -/
def appendBlockIn (s : CState) (fn : String) (name : String) : Nat × CState :=
  (s.nextBid,
   { s with blocks := s.blocks ++ [⟨s.nextBid, name, fn, [], false⟩],
            nextBid := s.nextBid + 1 })

/-- `IRBuilder.append_basic_block`: appends to the function that owns the
builder's current block. -/
def appendBasicBlock (s : CState) (name : String) : Except PyErr (Nat × CState) :=
  match curBlock s with
  | none => .error .attrError
  | some b => .ok (appendBlockIn s b.fn name)

/-- `Block.delete()`: remove the block from the final module. -/
def deleteBlock (s : CState) (bid : Nat) : CState :=
  { s with blocks := s.blocks.map (fun b =>
      if b.bid = bid then { b with deleted := true } else b) }

def freshReg (s : CState) : Nat × CState :=
  (s.nextReg, { s with nextReg := s.nextReg + 1 })

def emitAlloca (t : IRType) (s : CState) : Except PyErr (Value × CState) := do
  let (r, s1) := freshReg s
  let s2 ← emit (.alloca r t) s1
  pure (.reg r, s2)

def emitStore (v p : Value) (s : CState) : Except PyErr CState :=
  emit (.store v p) s

def emitLoad (p : Value) (s : CState) : Except PyErr (Value × CState) := do
  let (r, s1) := freshReg s
  let s2 ← emit (.load r p) s1
  pure (.loadRes r p, s2)

def emitArith (op : String) (l r : Value) (s : CState) : Except PyErr (Value × CState) := do
  let (n, s1) := freshReg s
  let s2 ← emit (.arith op n l r) s1
  pure (.reg n, s2)

def emitIcmp (op : String) (l r : Value) (s : CState) : Except PyErr (Value × CState) := do
  let (n, s1) := freshReg s
  let s2 ← emit (.icmp op n l r) s1
  pure (.reg n, s2)

def emitFcmp (op : String) (l r : Value) (s : CState) : Except PyErr (Value × CState) := do
  let (n, s1) := freshReg s
  let s2 ← emit (.fcmp op n l r) s1
  pure (.reg n, s2)

def emitSitofp (v : Value) (s : CState) : Except PyErr (Value × CState) := do
  let (n, s1) := freshReg s
  let s2 ← emit (.sitofp n v) s1
  pure (.reg n, s2)

def emitFptosi (v : Value) (s : CState) : Except PyErr (Value × CState) := do
  let (n, s1) := freshReg s
  let s2 ← emit (.fptosi n v) s1
  pure (.reg n, s2)

def emitBitcast (v : Value) (s : CState) : Except PyErr (Value × CState) := do
  let (n, s1) := freshReg s
  let s2 ← emit (.bitcast n v) s1
  pure (.reg n, s2)

def emitCall (fn : Value) (args : List Value) (s : CState) : Except PyErr (Value × CState) := do
  let (n, s1) := freshReg s
  let s2 ← emit (.callI n fn args) s1
  pure (.reg n, s2)

/-- `isinstance(t, ir.IntType)` on an operand type (i32, i1 and i8 are
all `IntType` instances; `None` matches nothing). -/
def isIntT : Option IRType → Bool
  | some .i32 => true
  | some .i1 => true
  | some .i8 => true
  | _ => false

/-- `isinstance(t, ir.FloatType)` on an operand type. -/
def isFloatT : Option IRType → Bool
  | some .f32 => true
  | _ => false

/-- `__power_operation_float`: declare the pow intrinsic on first use
(the result type here is always the 32-bit float, hence `llvm.pow.f32`),
then call it. -/
def powerOperationFloat (base exp : Value) (s : CState) : Except PyErr (Value × CState) :=
  let nm := "llvm.pow.f32"
  let s1 := if s.funcs.contains nm then s else { s with funcs := s.funcs ++ [nm] }
  emitCall (.globalRef nm) [base, exp] s1

/-- `__power_operation`: widen to float, call the float power, narrow
back to i32. -/
def powerOperation (base exp : Value) (s : CState) : Except PyErr (Value × CState) := do
  let (bf, s1) ← emitSitofp base s
  let (ef, s2) ← emitSitofp exp s1
  let (rf, s3) ← powerOperationFloat bf ef s2
  emitFptosi rf s3

/-- The body of `__visit_infix_expression` after both operands are
resolved.  `value` starts as `None` and `Type` as `None`; a matching
`isinstance` branch sets `Type` before dispatching on the operator, and
an unmatched operator leaves `value = None` with `Type` already set. -/
def infixCore (operator : String) (leftValue : Value) (leftType : Option IRType)
    (rightValue : Value) (rightType : Option IRType) (s : CState) :
    Except PyErr (Value × Option IRType × CState) :=
  if isIntT rightType && isIntT leftType then
    match operator with
    | "+" => do
      let (v, s1) ← emitArith "add" leftValue rightValue s
      pure (v, some .i32, s1)
    | "-" => do
      let (v, s1) ← emitArith "sub" leftValue rightValue s
      pure (v, some .i32, s1)
    | "*" => do
      let (v, s1) ← emitArith "mul" leftValue rightValue s
      pure (v, some .i32, s1)
    | "/" => do
      let (v, s1) ← emitArith "sdiv" leftValue rightValue s
      pure (v, some .i32, s1)
    | "%" => do
      let (v, s1) ← emitArith "srem" leftValue rightValue s
      pure (v, some .i32, s1)
    | "^" => do
      let (v, s1) ← powerOperation leftValue rightValue s
      pure (v, some .i32, s1)
    | "<" => do
      let (v, s1) ← emitIcmp "<" leftValue rightValue s
      pure (v, some .i1, s1)
    | "<=" => do
      let (v, s1) ← emitIcmp "<=" leftValue rightValue s
      pure (v, some .i1, s1)
    | ">" => do
      let (v, s1) ← emitIcmp ">" leftValue rightValue s
      pure (v, some .i1, s1)
    | ">=" => do
      let (v, s1) ← emitIcmp ">=" leftValue rightValue s
      pure (v, some .i1, s1)
    | "==" => do
      let (v, s1) ← emitIcmp "==" leftValue rightValue s
      pure (v, some .i1, s1)
    | _ => pure (.pynone, some .i32, s)
  else if isFloatT rightType && isFloatT leftType then
    match operator with
    | "+" => do
      let (v, s1) ← emitArith "fadd" leftValue rightValue s
      pure (v, some .f32, s1)
    | "-" => do
      let (v, s1) ← emitArith "fsub" leftValue rightValue s
      pure (v, some .f32, s1)
    | "*" => do
      let (v, s1) ← emitArith "fmul" leftValue rightValue s
      pure (v, some .f32, s1)
    | "/" => do
      let (v, s1) ← emitArith "fdiv" leftValue rightValue s
      pure (v, some .f32, s1)
    | "%" => do
      let (v, s1) ← emitArith "frem" leftValue rightValue s
      pure (v, some .f32, s1)
    | "^" => do
      let (v, s1) ← powerOperationFloat leftValue rightValue s
      pure (v, some .f32, s1)
    | "<" => do
      let (v, s1) ← emitFcmp "<" leftValue rightValue s
      pure (v, some .i1, s1)
    | "<=" => do
      let (v, s1) ← emitFcmp "<=" leftValue rightValue s
      pure (v, some .i1, s1)
    | ">" => do
      let (v, s1) ← emitFcmp ">" leftValue rightValue s
      pure (v, some .i1, s1)
    | ">=" => do
      let (v, s1) ← emitFcmp ">=" leftValue rightValue s
      pure (v, some .i1, s1)
    | "==" => do
      let (v, s1) ← emitFcmp "==" leftValue rightValue s
      pure (v, some .i1, s1)
    | _ => pure (.pynone, some .f32, s)
  else
    pure (.pynone, none, s)

/-- `builtin_printf`: allocate a slot for the first argument, store it,
then either reload through a load instruction's operand or bitcast the
most recent string global, and call `printf`. -/
def builtinPrintf (params : List Value) (returnType : Option IRType) (s : CState) :
    Except PyErr (Value × CState) :=
  match s.env.lookup "printf" with
  | none => .error .typeError
  | some (fv, _) =>
    match returnType with
    | none => .error .attrError
    | some rt =>
      match emitAlloca rt s with
      | .error e => .error e
      | .ok (cstr, s1) =>
        match params with
        | [] => .error .indexError
        | p0 :: rest =>
          match emitStore p0 cstr s1 with
          | .error e => .error e
          | .ok s2 =>
            match p0 with
            | .loadRes _ gptr =>
              match emitLoad gptr s2 with
              | .error e => .error e
              | .ok (sval, s3) =>
                match emitBitcast sval s3 with
                | .error e => .error e
                | .ok (fmt, s4) => emitCall fv (fmt :: rest) s4
            | _ =>
              if s2.globals.contains ("__str_" ++ toString s2.counter) then
                match emitBitcast (.globalRef ("__str_" ++ toString s2.counter)) s2 with
                | .error e => .error e
                | .ok (fmt, s3) => emitCall fv (fmt :: rest) s3
              else Except.error .keyError

/-- Dispatch of `__visit_call_expression` after the arguments have been
resolved: `printf` is special-cased; any other name is looked up in the
scope chain, and an unresolvable name raises (`None` is unpacked). -/
def callCore (name : String) (args : List Value) (types : List (Option IRType))
    (s : CState) : Except PyErr (Value × Option IRType × CState) :=
  if name = "printf" then
    match types with
    | [] => .error .indexError
    | t0 :: _ => do
      let (ret, s1) ← builtinPrintf args t0 s
      pure (ret, some .i32, s1)
  else
    match s.env.lookup name with
    | none => .error .typeError
    | some (fv, retType) => do
      let (ret, s1) ← emitCall fv args s
      pure (ret, some retType, s1)

/-- `__convert_string`: escape, null-terminate, create a fresh global
named from the incremented counter; the returned type is the global's
pointer-to-array type. -/
def convertString (str : String) (s : CState) : Value × Option IRType × CState :=
  let fmt := (str.replace "\\n" "\n\x00") ++ "\x00"
  let c := s.counter + 1
  let gname := "__str_" ++ toString c
  (.globalRef gname, some (.ptr (.arr .i8 fmt.length)),
   { s with counter := c, globals := s.globals ++ [gname] })

/-- Parameter prologue of `__visit_function_statement`: one alloca and
one store of the incoming argument per parameter, in order. -/
def allocParams (fn : String) : Nat → List IRType → CState → Except PyErr (List Value × CState)
  | _, [], s => .ok ([], s)
  | i, t :: rest, s => do
    let (p, s1) ← emitAlloca t s
    let s2 ← emitStore (.argRef fn i) p s1
    let (ps, s3) ← allocParams fn (i + 1) rest s2
    pure (p :: ps, s3)

/-- Bind parameters into the function's child scope (`zip` truncates). -/
def defineParams : Env → List String → List Value → List IRType → Env
  | e, n :: ns, p :: ps, t :: ts => defineParams (e.define n p t) ns ps ts
  | e, _, _, _ => e

/-- The error message of `__visit_assign_statement` (apostrophes written
via code points). -/
def assignErrorMsg (name : String) : String :=
  let q := Char.toString (Char.ofNat 39)
  "COMPILE ERROR: Identifier " ++ q ++ name ++ q ++
    " has not been declared before it was re-assigned."

/-- The AST node universe (`AST.Node`): the generator dispatches on a
node's kind tag, so statements, expressions and literals share one type. -/
inductive Node where
  | program (stmts : List Node)
  | exprStmt (expr : Node)
  | letStmt (name : String) (value : Node) (valueType : String)
  | funcStmt (name : String) (params : List (String × String)) (returnType : String) (body : Node)
  | blockStmt (stmts : List Node)
  | returnStmt (returnValue : Node)
  | assignStmt (ident : String) (rightValue : Node)
  | ifStmt (cond : Node) (consequence : Node) (alternative : Option Node)
  | whileStmt (cond : Node) (body : Node)
  | breakStmt
  | continueStmt
  | forStmt (varDecl : Node) (cond : Node) (action : Node) (body : Node)
  | infixExpression (left : Node) (op : String) (right : Node)
  | callExpression (funcName : String) (args : List Node)
  | integerLiteral (n : Int)
  | floatLiteral (x : Int)
  | identifierLiteral (name : String)
  | booleanLiteral (b : Bool)
  | stringLiteral (s : String)

mutual

/-- `Compiler.compile`: the main dispatch.  Node kinds with no matching
case fall through Python's `match` silently, returning the state
unchanged. -/
def compileF : Nat → Node → CState → Except PyErr CState
  | 0, _, _ => .error .fuelOut
  | f + 1, n, s =>
    match n with
    | .program stmts => compileListF f stmts s
    | .exprStmt e => compileF f e s
    | .letStmt name value _vt => do
      let (v, t, s1) ← resolveValueF f value s
      match s1.env.lookup name with
      | none =>
        match t with
        | none => .error .attrError
        | some ty => do
          let (ptr, s2) ← emitAlloca ty s1
          let s3 ← emitStore v ptr s2
          pure { s3 with env := s3.env.define name ptr ty }
      | some (ptr, _) => emitStore v ptr s1
    | .funcStmt name params returnType body => do
      let paramTypes ← params.mapM (fun p =>
        match typeMap p.2 with
        | none => Except.error PyErr.keyError
        | some t => pure t)
      match typeMap returnType with
      | none => .error .keyError
      | some retT => do
      let s1 := { s with funcs := s.funcs ++ [name] }
      let entry := s1.nextBid
      let s2 := (appendBlockIn s1 name (name ++ "_entry")).2
      let prevBuilder := s2.cur
      let s3 := { s2 with cur := some entry }
      let (ptrs, s4) ← allocParams name 0 paramTypes s3
      let envD := s4.env.define name (.globalRef name) retT
      let child : Env := .mk [] (some envD)
      let childEnv := (defineParams child (params.map (fun p => p.1)) ptrs paramTypes).define
        name (.globalRef name) retT
      let s5 := { s4 with env := childEnv }
      let s6 ← compileF f body s5
      pure { s6 with env := envD, cur := prevBuilder }
    | .blockStmt stmts => compileListF f stmts s
    | .returnStmt rv => do
      let (v, _t, s1) ← resolveValueF f rv s
      emitTerm (.ret v) s1
    | .assignStmt name rightValue => do
      let (v, _t, s1) ← resolveValueF f rightValue s
      match s1.env.lookup name with
      | none => pure { s1 with errors := s1.errors ++ [assignErrorMsg name] }
      | some (ptr, _) => emitStore v ptr s1
    | .ifStmt cond consequence alternative => do
      let (test, _t, s1) ← resolveValueF f cond s
      match alternative with
      | none => do
        -- llvmlite `if_then` context manager
        let bName := match curBlock s1 with
          | some b => b.name
          | none => ""
        let (bbif, s2) ← appendBasicBlock s1 (bName ++ ".if")
        let (bbend, s3) ← appendBasicBlock s2 (bName ++ ".endif")
        let s4 ← emitTerm (.cbr test bbif bbend) s3
        let s5 := { s4 with cur := some bbif }
        let s6 ← compileF f consequence s5
        let s7 ← match curTerminated s6 with
          | true => pure s6
          | false => emitTerm (.br bbend) s6
        pure { s7 with cur := some bbend }
      | some alt => do
        let c := s1.counter + 1
        let (thenB, s2) ← appendBasicBlock { s1 with counter := c } ("if_then_" ++ toString c)
        let (elseB, s3) ← appendBasicBlock s2 ("if_else_" ++ toString c)
        let (endifB, s4) ← appendBasicBlock s3 ("if_endif_" ++ toString c)
        let s5 ← emitTerm (.cbr test thenB elseB) s4
        let s6 ← compileF f consequence { s5 with cur := some thenB }
        let thenTerminated := curTerminated s6
        let s7 ← match thenTerminated with
          | true => pure s6
          | false => emitTerm (.br endifB) s6
        let s8 ← compileF f alt { s7 with cur := some elseB }
        let elseTerminated := curTerminated s8
        let s9 ← match elseTerminated with
          | true => pure s8
          | false => emitTerm (.br endifB) s8
        match !thenTerminated || !elseTerminated with
        | true => pure { s9 with cur := some endifB }
        | false => pure (deleteBlock s9 endifB)
    | .whileStmt cond body => do
      let (test, _t, s1) ← resolveValueF f cond s
      let c := s1.counter + 1
      let (entryB, s2) ← appendBasicBlock { s1 with counter := c }
        ("while_loop_entry_" ++ toString c)
      let (othB, s3) ← appendBasicBlock s2 ("while_loop_otherwise_" ++ toString c)
      let s4 ← emitTerm (.cbr test entryB othB) s3
      let s5 ← compileF f body { s4 with cur := some entryB }
      let (test2, _t2, s6) ← resolveValueF f cond s5
      let s7 ← emitTerm (.cbr test2 entryB othB) s6
      pure { s7 with cur := some othB }
    | .breakStmt =>
      match s.breakpoints with
      | [] => .error .indexError
      | b :: _ => emitTerm (.br b) s
    | .continueStmt =>
      match s.continues with
      | [] => .error .indexError
      | b :: _ => emitTerm (.br b) s
    | .forStmt varDecl cond action body => do
      let s0 := { s with env := Env.mk [] (some s.env) }
      let s1 ← compileF f varDecl s0
      let c := s1.counter + 1
      let (entryB, s2) ← appendBasicBlock { s1 with counter := c }
        ("for_loop_entry_" ++ toString c)
      let (othB, s3) ← appendBasicBlock s2 ("for_loop_otherwise_" ++ toString c)
      let s4 := { s3 with breakpoints := othB :: s3.breakpoints,
                          continues := entryB :: s3.continues }
      let s5 ← emitTerm (.br entryB) s4
      let s6 ← compileF f body { s5 with cur := some entryB }
      let s7 ← compileF f action s6
      let (test, _t, s8) ← resolveValueF f cond s7
      let s9 ← emitTerm (.cbr test entryB othB) s8
      let s10 := { s9 with cur := some othB }
      -- note: the source pops both stacks but never restores `self.env` here
      match s10.breakpoints, s10.continues with
      | [], _ => .error .indexError
      | _ :: _, [] => .error .indexError
      | _ :: bp, _ :: ct => pure { s10 with breakpoints := bp, continues := ct }
    | .infixExpression l op r => do
      let (lv, lt, s1) ← resolveValueF f l s
      let (rv, rt, s2) ← resolveValueF f r s1
      let (_, _, s3) ← infixCore op lv lt rv rt s2
      pure s3
    | .callExpression name args => do
      let (vs, ts, s1) ← resolveArgsF f args s
      let (_, _, s2) ← callCore name vs ts s1
      pure s2
    | _ => pure s

/-- `__visit_program` / `__visit_block_statement`: compile statements in
order. -/
def compileListF : Nat → List Node → CState → Except PyErr CState
  | 0, _, _ => .error .fuelOut
  | _ + 1, [], s => .ok s
  | f + 1, n :: rest, s => do
    let s1 ← compileF f n s
    compileListF f rest s1

/-- `__resolve_value`: literals, identifiers (load through the scope
chain; a failed lookup unpacks `None` and raises), and the two
expression kinds.  A node kind with no case makes the function return
`None`, which every caller immediately unpacks — modelled as the
resulting `TypeError`.  Note the stray `print(node.value)` on the
boolean-literal path, captured in `output`. -/
def resolveValueF : Nat → Node → CState → Except PyErr (Value × Option IRType × CState)
  | 0, _, _ => .error .fuelOut
  | f + 1, n, s =>
    match n with
    | .integerLiteral v => .ok (.constI .i32 v, some .i32, s)
    | .floatLiteral x => .ok (.constF x, some .f32, s)
    | .identifierLiteral name =>
      match s.env.lookup name with
      | none => .error .typeError
      | some (ptr, t) => do
        let (v, s1) ← emitLoad ptr s
        pure (v, some t, s1)
    | .booleanLiteral b =>
      .ok (.constI .i1 (if b then 1 else 0), some .i1,
           { s with output := s.output ++ [if b then "True" else "False"] })
    | .stringLiteral str => .ok (convertString str s)
    | .infixExpression l op r => do
      let (lv, lt, s1) ← resolveValueF f l s
      let (rv, rt, s2) ← resolveValueF f r s1
      infixCore op lv lt rv rt s2
    | .callExpression name args => do
      let (vs, ts, s1) ← resolveArgsF f args s
      callCore name vs ts s1
    | _ => .error .typeError

/-- Argument loop of `__visit_call_expression`. -/
def resolveArgsF : Nat → List Node → CState → Except PyErr (List Value × List (Option IRType) × CState)
  | 0, _, _ => .error .fuelOut
  | _ + 1, [], s => .ok ([], [], s)
  | f + 1, n :: rest, s => do
    let (v, t, s1) ← resolveValueF f n s
    let (vs, ts, s2) ← resolveArgsF f rest s1
    pure (v :: vs, t :: ts, s2)

end

/-- `Compiler.__init__` + `__initialize_builtins`: `printf` is declared,
`true`/`false` globals are created; a `GlobalVariable`'s `.type` is a
pointer to its declared type. -/
def initEnv : Env :=
  .mk [("printf", .globalRef "printf", .i32),
       ("true", .globalRef "true", .ptr .i1),
       ("false", .globalRef "false", .ptr .i1)] none

def initState : CState :=
  { blocks := [], funcs := ["printf"], globals := ["true", "false"], cur := none,
    counter := 0, env := initEnv, errors := [], breakpoints := [], continues := [],
    output := [], nextReg := 0, nextBid := 0 }

/-- A state as `__visit_function_statement` establishes it for a
parameterless `main`: one empty entry block with the cursor on it. -/
def fnState : CState :=
  { blocks := [⟨0, "main_entry", "main", [], false⟩], funcs := ["printf", "main"],
    globals := ["true", "false"], cur := some 0, counter := 0, env := initEnv,
    errors := [], breakpoints := [], continues := [], output := [], nextReg := 0,
    nextBid := 1 }

/-! ## Concrete claim inputs -/

/-- `fn main() -> void { }`: a function whose body emits no terminator. -/
def progC1 : Node := .program [.funcStmt "main" [] "void" (.blockStmt [])]

/-- `fn main() -> int { for (let i=0; i<3; i=i+1) { while i<2 { if true { break; } } } return 0; }`:
a break whose innermost enclosing loop is a while, inside a for loop. -/
def progC3n : Node := .program [.funcStmt "main" [] "int" (.blockStmt
  [.forStmt (.letStmt "i" (.integerLiteral 0) "int")
     (.infixExpression (.identifierLiteral "i") "<" (.integerLiteral 3))
     (.assignStmt "i" (.infixExpression (.identifierLiteral "i") "+" (.integerLiteral 1)))
     (.blockStmt
       [.whileStmt (.infixExpression (.identifierLiteral "i") "<" (.integerLiteral 2))
          (.blockStmt [.ifStmt (.booleanLiteral true) (.blockStmt [.breakStmt]) none])]),
   .returnStmt (.integerLiteral 0)])]

/-- `fn main() -> int { let b: bool = true; return 0; }`. -/
def progC9 : Node := .program [.funcStmt "main" [] "int" (.blockStmt
  [.letStmt "b" (.booleanLiteral true) "bool", .returnStmt (.integerLiteral 0)])]

/-- `for (let i: int = 0; i < 3; i = i + 1) { }`. -/
def forNodeC3 : Node :=
  .forStmt (.letStmt "i" (.integerLiteral 0) "int")
    (.infixExpression (.identifierLiteral "i") "<" (.integerLiteral 3))
    (.assignStmt "i" (.infixExpression (.identifierLiteral "i") "+" (.integerLiteral 1)))
    (.blockStmt [])

/-! ## Module-evolution invariants -/

/-- All block ids in the module are below the fresh-id counter (fresh
blocks never collide with existing ones). -/
def BidsBelow (s : CState) : Prop :=
  ∀ b ∈ s.blocks, b.bid < s.nextBid

/-- Observable identity of a block: name, owning function, deletion
status. -/
def BBlock.meta (b : BBlock) : String × String × Bool := (b.name, b.fn, b.deleted)

/-- What any successful generator step may do to the module: grow the
fresh-id counter, append instructions to blocks, and create fresh
blocks — while every block that existed before keeps its identity and
deletion status (deletions only ever hit blocks created by the step
itself). -/
def Mono (s s' : CState) : Prop :=
  s.nextBid ≤ s'.nextBid ∧
  (∀ bid, ∃ suf, blockInstrs s' bid = blockInstrs s bid ++ suf) ∧
  (∀ bid, bid < s.nextBid →
     (findBlock s' bid).map BBlock.meta = (findBlock s bid).map BBlock.meta) ∧
  (BidsBelow s → BidsBelow s')

/-- `Mono` plus restoration of the break/continue target stacks. -/
def Steps (s s' : CState) : Prop :=
  Mono s s' ∧ s'.breakpoints = s.breakpoints ∧ s'.continues = s.continues

/-! ## C1 -/

/-- C1 (code bug): compiling `fn main() -> void { }` succeeds but leaves
the live entry block `main_entry` with zero terminator instructions, so
the emitted module violates the every-block-has-exactly-one-terminator
invariant the claim states. -/
theorem c1_entry_block_without_terminator :
    ∃ s, compileF 16 progC1 initState = .ok s ∧
      (findBlock s 0).map BBlock.name = some "main_entry" ∧
      (findBlock s 0).map BBlock.deleted = some false ∧
      (blockInstrs s 0).countP Instr.isTerm = 0 :=
  ⟨_, rfl, rfl, rfl, rfl⟩

/-! ## C3: counterexample -/

/-- C3 (counterexample): in `progC3n` the break statement, whose
innermost enclosing loop is the `while`, emits `br` to block 2
(`for_loop_otherwise_1`, the exit of the enclosing **for** loop) and the
module contains no branch at all to block 4 (`while_loop_otherwise_2`,
the exit of the innermost **while** loop), contradicting the claim that
break targets the innermost active loop's exit. -/
theorem c3_counterexample_break_in_while_targets_for_exit :
    ∃ s, compileF 32 progC3n initState = .ok s ∧
      (findBlock s 5).map BBlock.name = some "while_loop_entry_2.if" ∧
      blockInstrs s 5 = [.br 2] ∧
      (findBlock s 2).map BBlock.name = some "for_loop_otherwise_1" ∧
      (findBlock s 4).map BBlock.name = some "while_loop_otherwise_2" ∧
      s.blocks.all (fun b => !(b.instrs.contains (.br 4))) = true :=
  ⟨_, rfl, rfl, rfl, rfl, rfl, rfl⟩

/-! ## C4: counterexample -/

/-- C4 (counterexample): compiling the mixed-operand expression
statement `1 + 3.0;` returns with the state **unchanged**: no error is
recorded and no instruction is emitted, so the generator does not reject
the expression explicitly as a type error. -/
theorem c4_counterexample_mixed_infix_not_rejected :
    compileF 8 (.exprStmt (.infixExpression (.integerLiteral 1) "+" (.floatLiteral 3))) fnState
      = .ok fnState := rfl

/-! ## C5: counterexample -/

/-- C5 (counterexample): a call to the unresolvable name `foo` is a
scope error, yet generation aborts with an exception (`lookup` returns
`None`, which is unpacked) instead of appending to the error list and
continuing. -/
theorem c5_counterexample_unresolvable_call_raises :
    compileF 8 (.program [.exprStmt (.callExpression "foo" [])]) initState
      = .error .typeError := rfl

/-! ## C4: amended -/

theorem isFloatT_eq_false_of_isIntT (t : Option IRType) (h : isIntT t = true) :
    isFloatT t = false := by
  rcases t with _ | t
  · rfl
  · cases t <;> simp_all [isIntT, isFloatT]

theorem isIntT_eq_false_of_isFloatT (t : Option IRType) (h : isFloatT t = true) :
    isIntT t = false := by
  rcases t with _ | t
  · rfl
  · cases t <;> simp_all [isIntT, isFloatT]

/-- C4 (amended): for every infix expression whose operands resolve to
different primitive classes (one integer, one float), the generator
emits no instruction, records no error, and returns `(None, None)` with
the state untouched — it does not reject the expression explicitly. -/
theorem c4_mixed_infix_silently_ignored (op : String) (lv rv : Value)
    (lt rt : Option IRType) (s : CState)
    (h : isIntT lt = true ∧ isFloatT rt = true ∨ isFloatT lt = true ∧ isIntT rt = true) :
    infixCore op lv lt rv rt s = .ok (.pynone, none, s) ∧
    ∀ (f : Nat) (l r : Node) (s0 s1 : CState),
      resolveValueF f l s0 = .ok (lv, lt, s1) →
      resolveValueF f r s1 = .ok (rv, rt, s) →
      resolveValueF (f + 1) (.infixExpression l op r) s0 = .ok (.pynone, none, s) := by
  have hcore : infixCore op lv lt rv rt s = .ok (.pynone, none, s) := by
    rcases h with ⟨hi, hf⟩ | ⟨hf, hi⟩
    · have h1 : isIntT rt = false := isIntT_eq_false_of_isFloatT rt hf
      have h2 : isFloatT lt = false := isFloatT_eq_false_of_isIntT lt hi
      simp [infixCore, h1, h2, pure, Except.pure]
    · have h1 : isIntT lt = false := isIntT_eq_false_of_isFloatT lt hf
      have h2 : isFloatT rt = false := isFloatT_eq_false_of_isIntT rt hi
      simp [infixCore, h1, h2, pure, Except.pure]
  refine ⟨hcore, ?_⟩
  intro f l r s0 s1 hl hr
  simp only [resolveValueF, hl, hr, bind, Except.bind, hcore]

/-- C4 witness: the concrete mixed expression `1 + 3.0`. -/
theorem c4_mixed_infix_witness :
    infixCore "+" (.constI .i32 1) (some .i32) (.constF 3) (some .f32) fnState
      = .ok (.pynone, none, fnState) ∧
    resolveValueF 2 (.infixExpression (.integerLiteral 1) "+" (.floatLiteral 3)) fnState
      = .ok (.pynone, none, fnState) :=
  ⟨(c4_mixed_infix_silently_ignored "+" (.constI .i32 1) (.constF 3)
      (some .i32) (some .f32) fnState (Or.inl ⟨rfl, rfl⟩)).1,
   (c4_mixed_infix_silently_ignored "+" (.constI .i32 1) (.constF 3)
      (some .i32) (some .f32) fnState (Or.inl ⟨rfl, rfl⟩)).2
     1 (.integerLiteral 1) (.floatLiteral 3) fnState fnState rfl rfl⟩

/-! ## C5: amended -/

/-- C5 (amended): scope errors from assignment to an undeclared name are
appended to the error list and compilation of the remaining statements
continues; but a call to an unresolvable name, or an identifier lookup
failure, raises an unhandled exception (the `None` lookup result is
unpacked) that aborts generation instead of being recorded. -/
theorem c5_scope_error_accumulation :
    (∀ (f : Nat) (name : String) (rhs : Node) (rest : List Node) (s s1 : CState)
       (v : Value) (t : Option IRType),
       resolveValueF f rhs s = .ok (v, t, s1) →
       s1.env.lookup name = none →
       compileListF (f + 2) (.assignStmt name rhs :: rest) s
         = compileListF (f + 1) rest
             { s1 with errors := s1.errors ++ [assignErrorMsg name] }) ∧
    (∀ (f : Nat) (name : String) (args : List Node) (s s1 : CState)
       (vs : List Value) (ts : List (Option IRType)),
       resolveArgsF f args s = .ok (vs, ts, s1) →
       name ≠ "printf" →
       s1.env.lookup name = none →
       resolveValueF (f + 1) (.callExpression name args) s = .error .typeError) ∧
    (∀ (f : Nat) (name : String) (s : CState),
       s.env.lookup name = none →
       resolveValueF (f + 1) (.identifierLiteral name) s = .error .typeError) := by
  refine ⟨?_, ?_, ?_⟩
  · intro f name rhs rest s s1 v t h hl
    simp only [compileListF, compileF, h, hl, bind, Except.bind, pure, Except.pure]
  · intro f name args s s1 vs ts h hn hl
    simp only [resolveValueF, h, bind, Except.bind, callCore, if_neg hn, hl]
  · intro f name s hl
    simp only [resolveValueF, hl]

/-- C5 witness: `x = 1;` with `x` undeclared accumulates and continues;
`foo()` with `foo` unresolvable and a lookup of `zzz` raise. -/
theorem c5_scope_error_witness :
    compileListF 3 [.assignStmt "x" (.integerLiteral 1)] fnState
      = compileListF 2 [] { fnState with errors := fnState.errors ++ [assignErrorMsg "x"] } ∧
    resolveValueF 2 (.callExpression "foo" []) fnState = .error .typeError ∧
    resolveValueF 1 (.identifierLiteral "zzz") fnState = .error .typeError :=
  ⟨c5_scope_error_accumulation.1 1 "x" (.integerLiteral 1) [] fnState fnState
     (.constI .i32 1) (some .i32) rfl rfl,
   c5_scope_error_accumulation.2.1 1 "foo" [] fnState fnState [] [] rfl
     (by decide) rfl,
   c5_scope_error_accumulation.2.2 0 "zzz" fnState rfl⟩

/-! ## C6 -/

/-- C6: a `let` whose name does not resolve anywhere in the scope chain
allocates a fresh stack slot of the resolved value's type, stores the
value into it, and defines the binding in the current scope; a `let`
whose name does resolve stores into the existing slot and makes no new
allocation or binding. -/
theorem c6_let_statement (f : Nat) (name : String) (value : Node) (vt : String)
    (s s1 : CState) (v : Value) (T : IRType)
    (h : resolveValueF f value s = .ok (v, some T, s1)) :
    (∀ bid, s1.env.lookup name = none → s1.cur = some bid →
       compileF (f + 1) (.letStmt name value vt) s
         = .ok { appendInstr
                   (appendInstr { s1 with nextReg := s1.nextReg + 1 } bid
                     (.alloca s1.nextReg T))
                   bid (.store v (.reg s1.nextReg))
                 with env := s1.env.define name (.reg s1.nextReg) T }) ∧
    (∀ ptr pt bid, s1.env.lookup name = some (ptr, pt) → s1.cur = some bid →
       compileF (f + 1) (.letStmt name value vt) s
         = .ok (appendInstr s1 bid (.store v ptr))) := by
  constructor
  · intro bid hl hcur
    simp only [compileF, h, hl, bind, Except.bind, pure, Except.pure,
      emitAlloca, emitStore, emit, freshReg, hcur, appendInstr]
  · intro ptr pt bid hl hcur
    simp only [compileF, h, hl, bind, Except.bind, pure, Except.pure,
      emitStore, emit, hcur]

/-- C6 witness: `let x: int = 5;` in a fresh function state (branch with
an unresolvable name), exercising allocation, store, and define. -/
theorem c6_let_witness :
    compileF 2 (.letStmt "x" (.integerLiteral 5) "int") fnState
      = .ok { appendInstr
                (appendInstr { fnState with nextReg := fnState.nextReg + 1 } 0
                  (.alloca fnState.nextReg .i32))
                0 (.store (.constI .i32 5) (.reg fnState.nextReg))
              with env := fnState.env.define "x" (.reg fnState.nextReg) .i32 } :=
  (c6_let_statement 1 "x" (.integerLiteral 5) "int" fnState fnState
     (.constI .i32 5) .i32 rfl).1 0 rfl rfl

/-! ## C7 -/

/-- C7: an assignment whose target does not resolve records exactly the
semantic error and leaves everything else (module blocks, environment,
cursor) unchanged — in particular no store is emitted; an assignment
whose target resolves stores the value into the existing slot. -/
theorem c7_assign_statement (f : Nat) (name : String) (rhs : Node)
    (s s1 : CState) (v : Value) (t : Option IRType)
    (h : resolveValueF f rhs s = .ok (v, t, s1)) :
    (s1.env.lookup name = none →
       compileF (f + 1) (.assignStmt name rhs) s
         = .ok { s1 with errors := s1.errors ++ [assignErrorMsg name] }) ∧
    (∀ ptr pt bid, s1.env.lookup name = some (ptr, pt) → s1.cur = some bid →
       compileF (f + 1) (.assignStmt name rhs) s
         = .ok (appendInstr s1 bid (.store v ptr))) := by
  constructor
  · intro hl
    simp only [compileF, h, hl, bind, Except.bind, pure, Except.pure]
  · intro ptr pt bid hl hcur
    simp only [compileF, h, hl, bind, Except.bind, pure, Except.pure,
      emitStore, emit, hcur]

/-- C7 witness: `x = 1;` with `x` undeclared records the error and
changes nothing else. -/
theorem c7_assign_witness :
    compileF 2 (.assignStmt "x" (.integerLiteral 1)) fnState
      = .ok { fnState with errors := fnState.errors ++ [assignErrorMsg "x"] } :=
  (c7_assign_statement 1 "x" (.integerLiteral 1) fnState fnState
     (.constI .i32 1) (some .i32) rfl).1 rfl

/-! ## C8 -/

theorem lookupRecords_updateRecords_self (recs : List (String × Value × IRType))
    (n : String) (v : Value) (t : IRType) :
    lookupRecords (updateRecords recs n v t) n = some (v, t) := by
  induction recs with
  | nil => simp [updateRecords, lookupRecords]
  | cons hd tl ih =>
    obtain ⟨hn, hb⟩ := hd
    by_cases hh : hn = n
    · simp [updateRecords, hh, lookupRecords]
    · simp [updateRecords, hh, lookupRecords, ih]

/-- Names absent from every frame of the chain look up to `none`. -/
theorem lookup_eq_none_of_not_containsName :
    ∀ (e : Env) (n : String), e.containsName n = false → e.lookup n = none
  | .mk recs none, n, h => by
    have hr : lookupRecords recs n = none := by
      rcases hh : lookupRecords recs n with _ | b
      · rfl
      · simp [Env.containsName, hh] at h
    simp [Env.lookup, hr]
  | .mk recs (some pe), n, h => by
    have hr : lookupRecords recs n = none := by
      rcases hh : lookupRecords recs n with _ | b
      · rfl
      · simp [Env.containsName, hh] at h
    have hp : pe.containsName n = false := by
      simpa [Env.containsName, hr] using h
    simp only [Env.lookup, hr]
    exact lookup_eq_none_of_not_containsName pe n hp

/-- C8: `define` followed by `lookup` of the same name in the same scope
returns the just-defined binding; a lookup that misses the child scope
delegates unchanged to the parent (so ancestor definitions are visible
from descendants); a name contained in no scope of the chain looks up to
"not found"; and the lookup performed when resolving an identifier
leaves the environment untouched. -/
theorem c8_environment_contract :
    (∀ (e : Env) (n : String) (v : Value) (t : IRType),
       (e.define n v t).lookup n = some (v, t)) ∧
    (∀ (recs : List (String × Value × IRType)) (p : Env) (n : String),
       lookupRecords recs n = none →
       (Env.mk recs (some p)).lookup n = p.lookup n) ∧
    (∀ (e : Env) (n : String), e.containsName n = false → e.lookup n = none) ∧
    (∀ (f : Nat) (nm : String) (s : CState) (v : Value) (t : Option IRType) (s1 : CState),
       resolveValueF (f + 1) (.identifierLiteral nm) s = .ok (v, t, s1) →
       s1.env = s.env) := by
  refine ⟨?_, ?_, lookup_eq_none_of_not_containsName, ?_⟩
  · intro e n v t
    obtain ⟨recs, p⟩ := e
    show (Env.mk (updateRecords recs n v t) p).lookup n = some (v, t)
    rcases p with _ | pe <;> simp [Env.lookup, lookupRecords_updateRecords_self]
  · intro recs p n h
    simp [Env.lookup, h]
  · intro f nm s v t s1 h
    simp only [resolveValueF] at h
    rcases hl : s.env.lookup nm with _ | b
    · rw [hl] at h
      cases h
    · obtain ⟨ptr, ty⟩ := b
      rw [hl] at h
      simp only [emitLoad, freshReg, emit, bind, Except.bind, pure, Except.pure] at h
      rcases hc : s.cur with _ | bid
      · rw [hc] at h
        cases h
      · rw [hc] at h
        simp only [Except.bind] at h
        cases h
        rfl

/-- C8 witness: concrete define/lookup chains and a concrete identifier
resolution. -/
theorem c8_environment_witness :
    ((Env.mk [] none).define "a" (.reg 0) .i32).lookup "a" = some (.reg 0, .i32) ∧
    (Env.mk [("b", .reg 1, .i32)] (some ((Env.mk [] none).define "a" (.reg 0) .i32))).lookup "a"
      = ((Env.mk [] none).define "a" (.reg 0) .i32).lookup "a" ∧
    (Env.mk [("b", .reg 1, .i32)] (some (Env.mk [] none))).lookup "a" = none ∧
    (appendInstr { fnState with nextReg := fnState.nextReg + 1 } 0
       (.load fnState.nextReg (.globalRef "true"))).env = fnState.env :=
  ⟨c8_environment_contract.1 (Env.mk [] none) "a" (.reg 0) .i32,
   c8_environment_contract.2.1 [("b", .reg 1, .i32)]
     ((Env.mk [] none).define "a" (.reg 0) .i32) "a" rfl,
   c8_environment_contract.2.2.1 (Env.mk [("b", .reg 1, .i32)] (some (Env.mk [] none))) "a" rfl,
   c8_environment_contract.2.2.2 0 "true" fnState
     (.loadRes fnState.nextReg (.globalRef "true")) (some (.ptr .i1))
     (appendInstr { fnState with nextReg := fnState.nextReg + 1 } 0
       (.load fnState.nextReg (.globalRef "true"))) rfl⟩

/-! ## C9 -/

/-- C9 (code bug): resolving the boolean literal in
`let b: bool = true;` executes the stray `print(node.value)` in
`__resolve_value`, writing a line to stdout — the core does perform I/O,
contradicting the claim. -/
theorem c9_boolean_literal_resolution_writes_stdout :
    ∃ s, compileF 16 progC9 initState = .ok s ∧ s.output = ["True"] :=
  ⟨_, rfl, rfl⟩

/-! ## C10 -/

/-- C10: for every AST node kind with no case in `compile`'s dispatch
(the five literal kinds), `compile` returns the state unchanged: no IR
is emitted, no error is recorded, and no exception is raised. -/
theorem c10_unmatched_node_kinds_are_silent_noops (f : Nat) (s : CState)
    (n x : Int) (nm : String) (b : Bool) (str : String) :
    compileF (f + 1) (.integerLiteral n) s = .ok s ∧
    compileF (f + 1) (.floatLiteral x) s = .ok s ∧
    compileF (f + 1) (.identifierLiteral nm) s = .ok s ∧
    compileF (f + 1) (.booleanLiteral b) s = .ok s ∧
    compileF (f + 1) (.stringLiteral str) s = .ok s :=
  ⟨rfl, rfl, rfl, rfl, rfl⟩

/-! ## Evolution lemma suite -/

theorem exceptBind_ok {α β : Type} {e : Except PyErr α} {k : α → Except PyErr β} {b : β}
    (h : e >>= k = .ok b) : ∃ a, e = .ok a ∧ k a = .ok b := by
  cases e with
  | error ε => simp [bind, Except.bind] at h
  | ok a => exact ⟨a, rfl, by simpa [bind, Except.bind] using h⟩

theorem mono_refl (s : CState) : Mono s s :=
  ⟨le_refl _, fun _ => ⟨[], (List.append_nil _).symm⟩, fun _ _ => rfl, id⟩

theorem mono_trans {s1 s2 s3 : CState} (h1 : Mono s1 s2) (h2 : Mono s2 s3) :
    Mono s1 s3 := by
  obtain ⟨a1, b1, c1, d1⟩ := h1
  obtain ⟨a2, b2, c2, d2⟩ := h2
  refine ⟨le_trans a1 a2, ?_, ?_, fun h => d2 (d1 h)⟩
  · intro bid
    obtain ⟨u, hu⟩ := b1 bid
    obtain ⟨w, hw⟩ := b2 bid
    exact ⟨u ++ w, by rw [hw, hu, List.append_assoc]⟩
  · intro bid hb
    rw [c2 bid (lt_of_lt_of_le hb a1), c1 bid hb]

theorem steps_refl (s : CState) : Steps s s := ⟨mono_refl s, rfl, rfl⟩

theorem steps_trans {s1 s2 s3 : CState} (h1 : Steps s1 s2) (h2 : Steps s2 s3) :
    Steps s1 s3 :=
  ⟨mono_trans h1.1 h2.1, h2.2.1.trans h1.2.1, h2.2.2.trans h1.2.2⟩

theorem findBlockIn_append (l1 l2 : List BBlock) (bid : Nat) :
    findBlockIn (l1 ++ l2) bid =
      match findBlockIn l1 bid with
      | some b => some b
      | none => findBlockIn l2 bid := by
  induction l1 with
  | nil => simp [findBlockIn]
  | cons hd tl ih =>
    by_cases hh : hd.bid = bid
    · simp [findBlockIn, hh]
    · simp [findBlockIn, hh, ih]

theorem findBlockIn_map (g : BBlock → BBlock) (hg : ∀ b, (g b).bid = b.bid)
    (l : List BBlock) (bid : Nat) :
    findBlockIn (l.map g) bid = (findBlockIn l bid).map g := by
  induction l with
  | nil => simp [findBlockIn]
  | cons hd tl ih =>
    by_cases hh : hd.bid = bid
    · simp [findBlockIn, hg, hh]
    · simp [findBlockIn, hg, hh, ih]

theorem findBlockIn_some_bid {l : List BBlock} {bid : Nat} {b : BBlock}
    (h : findBlockIn l bid = some b) : b.bid = bid := by
  induction l with
  | nil => simp [findBlockIn] at h
  | cons hd tl ih =>
    by_cases hh : hd.bid = bid
    · simp only [findBlockIn, hh, if_true, Option.some.injEq] at h
      rw [← h]
      exact hh
    · simp only [findBlockIn, hh, if_false] at h
      exact ih h

theorem findBlockIn_none_of_lt {l : List BBlock} {k : Nat}
    (h : ∀ b ∈ l, b.bid < k) : findBlockIn l k = none := by
  induction l with
  | nil => rfl
  | cons hd tl ih =>
    have hne : hd.bid ≠ k := Nat.ne_of_lt (h hd (by simp))
    simp only [findBlockIn, hne, if_false]
    exact ih (fun b hb => h b (by simp [hb]))

theorem findBlock_appendInstr (s : CState) (bid : Nat) (i : Instr) (bid' : Nat) :
    findBlock (appendInstr s bid i) bid'
      = (findBlock s bid').map
          (fun b => if b.bid = bid then { b with instrs := b.instrs ++ [i] } else b) := by
  unfold findBlock appendInstr
  exact findBlockIn_map _ (fun b => by by_cases hb : b.bid = bid <;> simp [hb]) _ _

theorem blockInstrs_appendInstr (s : CState) (bid : Nat) (i : Instr) (bid' : Nat) :
    ∃ suf, blockInstrs (appendInstr s bid i) bid' = blockInstrs s bid' ++ suf := by
  unfold blockInstrs
  rw [findBlock_appendInstr]
  rcases hf : findBlock s bid' with _ | b
  · exact ⟨[], rfl⟩
  · by_cases hb : b.bid = bid
    · exact ⟨[i], by simp [hb]⟩
    · exact ⟨[], by simp [hb]⟩

theorem blockInstrs_appendInstr_found {s : CState} {bid : Nat} {b : BBlock}
    (hf : findBlock s bid = some b) (i : Instr) :
    blockInstrs (appendInstr s bid i) bid = blockInstrs s bid ++ [i] := by
  have hb : b.bid = bid := findBlockIn_some_bid hf
  unfold blockInstrs
  rw [findBlock_appendInstr, hf]
  simp [hb]

theorem meta_appendInstr (s : CState) (bid : Nat) (i : Instr) (bid' : Nat) :
    (findBlock (appendInstr s bid i) bid').map BBlock.meta
      = (findBlock s bid').map BBlock.meta := by
  rw [findBlock_appendInstr]
  rcases findBlock s bid' with _ | b
  · rfl
  · by_cases hb : b.bid = bid <;> simp [BBlock.meta, hb]

theorem steps_appendInstr (s : CState) (bid : Nat) (i : Instr) :
    Steps s (appendInstr s bid i) := by
  refine ⟨⟨le_refl _, fun bid' => blockInstrs_appendInstr s bid i bid',
    fun bid' _ => meta_appendInstr s bid i bid', ?_⟩, rfl, rfl⟩
  intro h b hb
  simp only [appendInstr, List.mem_map] at hb
  obtain ⟨a, ha, rfl⟩ := hb
  have hlt := h a ha
  have hbid : (if a.bid = bid then { a with instrs := a.instrs ++ [i] } else a).bid = a.bid := by
    by_cases hba : a.bid = bid <;> simp [hba]
  show (if a.bid = bid then { a with instrs := a.instrs ++ [i] } else a).bid
      < (appendInstr s bid i).nextBid
  rw [hbid]
  exact hlt

theorem steps_of_shell {s s' : CState} (hb : s'.blocks = s.blocks)
    (hn : s'.nextBid = s.nextBid) (hbp : s'.breakpoints = s.breakpoints)
    (hc : s'.continues = s.continues) : Steps s s' := by
  refine ⟨⟨le_of_eq hn.symm, ?_, ?_, ?_⟩, hbp, hc⟩
  · intro bid
    refine ⟨[], ?_⟩
    rw [List.append_nil]
    unfold blockInstrs findBlock
    rw [hb]
  · intro bid _
    unfold findBlock
    rw [hb]
  · intro h b hmem
    rw [hn]
    exact h b (hb ▸ hmem)

theorem steps_appendBlockIn (s : CState) (fn nm : String) :
    Steps s (appendBlockIn s fn nm).2 := by
  refine ⟨⟨Nat.le_succ _, ?_, ?_, ?_⟩, rfl, rfl⟩
  · intro bid
    unfold blockInstrs findBlock appendBlockIn
    simp only
    rw [findBlockIn_append]
    rcases hf : findBlockIn s.blocks bid with _ | b
    · by_cases hb : s.nextBid = bid
      · exact ⟨[], by simp [findBlockIn, hb]⟩
      · exact ⟨[], by simp [findBlockIn, hb]⟩
    · exact ⟨[], by simp⟩
  · intro bid hlt
    unfold findBlock appendBlockIn
    simp only
    rw [findBlockIn_append]
    rcases hf : findBlockIn s.blocks bid with _ | b
    · have hb : s.nextBid ≠ bid := Nat.ne_of_gt hlt
      simp [findBlockIn, hb]
    · simp
  · intro h b hmem
    simp only [appendBlockIn, List.mem_append, List.mem_singleton] at hmem
    rcases hmem with hmem | rfl
    · exact Nat.lt_succ_of_lt (h b hmem)
    · exact Nat.lt_succ_self _

theorem blockInstrs_deleteBlock (s : CState) (k : Nat) (bid : Nat) :
    blockInstrs (deleteBlock s k) bid = blockInstrs s bid := by
  unfold blockInstrs findBlock deleteBlock
  simp only
  rw [findBlockIn_map _ (fun b => by by_cases hb : b.bid = k <;> simp [hb])]
  rcases findBlockIn s.blocks bid with _ | b
  · rfl
  · by_cases hb : b.bid = k <;> simp [hb]

theorem steps_deleteBlock_of_le {s : CState} {k : Nat} (hk : s.nextBid ≤ k) :
    Steps s (deleteBlock s k) := by
  refine ⟨⟨le_refl _, fun bid => ⟨[], by rw [List.append_nil, blockInstrs_deleteBlock]⟩,
    ?_, ?_⟩, rfl, rfl⟩
  · intro bid hlt
    unfold findBlock deleteBlock
    simp only
    rw [findBlockIn_map _ (fun b => by by_cases hb : b.bid = k <;> simp [hb])]
    rcases hf : findBlockIn s.blocks bid with _ | b
    · rfl
    · have hb : b.bid = bid := findBlockIn_some_bid hf
      have : b.bid ≠ k := by
        rw [hb]
        exact Nat.ne_of_lt (lt_of_lt_of_le hlt hk)
      simp [this]
  · intro h b hmem
    simp only [deleteBlock, List.mem_map] at hmem
    obtain ⟨a, ha, rfl⟩ := hmem
    have hlt := h a ha
    have hbid : (if a.bid = k then { a with deleted := true } else a).bid = a.bid := by
      by_cases hba : a.bid = k <;> simp [hba]
    show (if a.bid = k then { a with deleted := true } else a).bid
        < (deleteBlock s k).nextBid
    rw [hbid]
    exact hlt

theorem findBlock_deleteBlock_self {s : CState} {k : Nat} {b : BBlock}
    (hf : findBlock s k = some b) :
    findBlock (deleteBlock s k) k = some { b with deleted := true } := by
  unfold findBlock deleteBlock at *
  simp only
  rw [findBlockIn_map _ (fun b => by by_cases hb : b.bid = k <;> simp [hb]), hf]
  have := findBlockIn_some_bid hf
  simp [this]

theorem emit_ok {i : Instr} {s s' : CState} (h : emit i s = .ok s') :
    ∃ bid, s.cur = some bid ∧ s' = appendInstr s bid i := by
  unfold emit at h
  rcases hc : s.cur with _ | bid
  · rw [hc] at h
    cases h
  · rw [hc] at h
    cases h
    exact ⟨bid, rfl, rfl⟩

theorem emitTerm_ok {i : Instr} {s s' : CState} (h : emitTerm i s = .ok s') :
    ∃ bid b, s.cur = some bid ∧ findBlock s bid = some b ∧ b.isTerminated = false ∧
      s' = appendInstr s bid i := by
  unfold emitTerm at h
  split at h
  · cases h
  next bid heq =>
    split at h
    · cases h
    next b hf =>
      split at h
      · cases h
      next ht =>
        cases h
        exact ⟨bid, b, heq, hf, by simpa using ht, rfl⟩

theorem appendBasicBlock_ok {s : CState} {nm : String} {r : Nat × CState}
    (h : appendBasicBlock s nm = .ok r) :
    ∃ bid b, s.cur = some bid ∧ findBlock s bid = some b ∧
      r = appendBlockIn s b.fn nm := by
  unfold appendBasicBlock curBlock at h
  rcases hc : s.cur with _ | bid
  · rw [hc] at h
    simp only [Option.bind] at h
    cases h
  · rw [hc] at h
    simp only [Option.bind] at h
    rcases hf : findBlock s bid with _ | b
    · rw [hf] at h
      cases h
    · rw [hf] at h
      cases h
      exact ⟨bid, b, rfl, hf, rfl⟩

theorem steps_emit {i : Instr} {s s' : CState} (h : emit i s = .ok s') : Steps s s' := by
  obtain ⟨bid, _, rfl⟩ := emit_ok h
  exact steps_appendInstr s bid i

theorem steps_emitTerm {i : Instr} {s s' : CState} (h : emitTerm i s = .ok s') :
    Steps s s' := by
  obtain ⟨bid, b, _, _, _, rfl⟩ := emitTerm_ok h
  exact steps_appendInstr s bid i

theorem steps_appendBasicBlock {s : CState} {nm : String} {r : Nat × CState}
    (h : appendBasicBlock s nm = .ok r) : Steps s r.2 := by
  obtain ⟨bid, b, _, _, rfl⟩ := appendBasicBlock_ok h
  exact steps_appendBlockIn s b.fn nm

theorem steps_emit_bump {i : Instr} {s s2 : CState} {k : Nat}
    (h : emit i { s with nextReg := k } = .ok s2) : Steps s s2 :=
  steps_trans (@steps_of_shell s { s with nextReg := k } rfl rfl rfl rfl) (steps_emit h)

theorem steps_emitStore {v p : Value} {s s' : CState}
    (h : emitStore v p s = .ok s') : Steps s s' := by
  unfold emitStore at h
  exact steps_emit h

theorem steps_emitAlloca {t : IRType} {s : CState} {r : Value × CState}
    (h : emitAlloca t s = .ok r) : Steps s r.2 := by
  simp only [emitAlloca, freshReg] at h
  obtain ⟨s2, he, hk⟩ := exceptBind_ok h
  simp only [pure, Except.pure] at hk
  cases hk
  exact steps_emit_bump he

theorem steps_emitLoad {p : Value} {s : CState} {r : Value × CState}
    (h : emitLoad p s = .ok r) : Steps s r.2 := by
  simp only [emitLoad, freshReg] at h
  obtain ⟨s2, he, hk⟩ := exceptBind_ok h
  simp only [pure, Except.pure] at hk
  cases hk
  exact steps_emit_bump he

theorem steps_emitArith {op : String} {l rv : Value} {s : CState} {r : Value × CState}
    (h : emitArith op l rv s = .ok r) : Steps s r.2 := by
  simp only [emitArith, freshReg] at h
  obtain ⟨s2, he, hk⟩ := exceptBind_ok h
  simp only [pure, Except.pure] at hk
  cases hk
  exact steps_emit_bump he

theorem steps_emitIcmp {op : String} {l rv : Value} {s : CState} {r : Value × CState}
    (h : emitIcmp op l rv s = .ok r) : Steps s r.2 := by
  simp only [emitIcmp, freshReg] at h
  obtain ⟨s2, he, hk⟩ := exceptBind_ok h
  simp only [pure, Except.pure] at hk
  cases hk
  exact steps_emit_bump he

theorem steps_emitFcmp {op : String} {l rv : Value} {s : CState} {r : Value × CState}
    (h : emitFcmp op l rv s = .ok r) : Steps s r.2 := by
  simp only [emitFcmp, freshReg] at h
  obtain ⟨s2, he, hk⟩ := exceptBind_ok h
  simp only [pure, Except.pure] at hk
  cases hk
  exact steps_emit_bump he

theorem steps_emitSitofp {v : Value} {s : CState} {r : Value × CState}
    (h : emitSitofp v s = .ok r) : Steps s r.2 := by
  simp only [emitSitofp, freshReg] at h
  obtain ⟨s2, he, hk⟩ := exceptBind_ok h
  simp only [pure, Except.pure] at hk
  cases hk
  exact steps_emit_bump he

theorem steps_emitFptosi {v : Value} {s : CState} {r : Value × CState}
    (h : emitFptosi v s = .ok r) : Steps s r.2 := by
  simp only [emitFptosi, freshReg] at h
  obtain ⟨s2, he, hk⟩ := exceptBind_ok h
  simp only [pure, Except.pure] at hk
  cases hk
  exact steps_emit_bump he

theorem steps_emitBitcast {v : Value} {s : CState} {r : Value × CState}
    (h : emitBitcast v s = .ok r) : Steps s r.2 := by
  simp only [emitBitcast, freshReg] at h
  obtain ⟨s2, he, hk⟩ := exceptBind_ok h
  simp only [pure, Except.pure] at hk
  cases hk
  exact steps_emit_bump he

theorem steps_emitCall {fn : Value} {args : List Value} {s : CState} {r : Value × CState}
    (h : emitCall fn args s = .ok r) : Steps s r.2 := by
  simp only [emitCall, freshReg] at h
  obtain ⟨s2, he, hk⟩ := exceptBind_ok h
  simp only [pure, Except.pure] at hk
  cases hk
  exact steps_emit_bump he

theorem steps_powerOperationFloat {base exp : Value} {s : CState} {r : Value × CState}
    (h : powerOperationFloat base exp s = .ok r) : Steps s r.2 := by
  simp only [powerOperationFloat] at h
  by_cases hc : s.funcs.contains "llvm.pow.f32" = true
  · rw [if_pos hc] at h
    exact steps_emitCall h
  · rw [if_neg hc] at h
    exact steps_trans
      (@steps_of_shell s { s with funcs := s.funcs ++ ["llvm.pow.f32"] } rfl rfl rfl rfl)
      (steps_emitCall h)

theorem steps_powerOperation {base exp : Value} {s : CState} {r : Value × CState}
    (h : powerOperation base exp s = .ok r) : Steps s r.2 := by
  unfold powerOperation at h
  obtain ⟨⟨bf, s1⟩, h1, h⟩ := exceptBind_ok h
  obtain ⟨⟨ef, s2⟩, h2, h⟩ := exceptBind_ok h
  obtain ⟨⟨rf, s3⟩, h3, h⟩ := exceptBind_ok h
  exact steps_trans (steps_emitSitofp h1) (steps_trans (steps_emitSitofp h2)
    (steps_trans (steps_powerOperationFloat h3) (steps_emitFptosi h)))

theorem steps_infixCore {op : String} {lv : Value} {lt : Option IRType} {rv : Value}
    {rt : Option IRType} {s : CState} {r : Value × Option IRType × CState}
    (h : infixCore op lv lt rv rt s = .ok r) : Steps s r.2.2 := by
  unfold infixCore at h
  split at h
  · split at h <;>
    first
    | (simp only [pure, Except.pure] at h
       cases h
       exact steps_refl _)
    | (obtain ⟨⟨v1, s1⟩, he, hk⟩ := exceptBind_ok h
       simp only [pure, Except.pure] at hk
       cases hk
       first
       | exact steps_emitArith he
       | exact steps_emitIcmp he
       | exact steps_powerOperation he)
  · split at h
    · split at h <;>
      first
      | (simp only [pure, Except.pure] at h
         cases h
         exact steps_refl _)
      | (obtain ⟨⟨v1, s1⟩, he, hk⟩ := exceptBind_ok h
         simp only [pure, Except.pure] at hk
         cases hk
         first
         | exact steps_emitArith he
         | exact steps_emitFcmp he
         | exact steps_powerOperationFloat he)
    · simp only [pure, Except.pure] at h
      cases h
      exact steps_refl _

theorem steps_builtinPrintf {params : List Value} {rt : Option IRType} {s : CState}
    {r : Value × CState} (h : builtinPrintf params rt s = .ok r) : Steps s r.2 := by
  unfold builtinPrintf at h
  split at h
  · cases h
  · split at h
    · cases h
    · split at h
      · cases h
      next cstr s1 h1 =>
        split at h
        · cases h
        next p0 rest =>
          split at h
          · cases h
          next s2 h2 =>
            have st2 : Steps s s2 := steps_trans (steps_emitAlloca h1) (steps_emitStore h2)
            split at h <;>
            first
            | (split at h
               · cases h
               next sval s3 h3 =>
                 split at h
                 · cases h
                 next fmt s4 h4 =>
                   exact steps_trans st2 (steps_trans (steps_emitLoad h3)
                     (steps_trans (steps_emitBitcast h4) (steps_emitCall h))))
            | (split at h
               · split at h
                 · cases h
                 next fmt s3 h3 =>
                   exact steps_trans st2 (steps_trans (steps_emitBitcast h3) (steps_emitCall h))
               · cases h)

theorem steps_callCore {name : String} {args : List Value} {types : List (Option IRType)}
    {s : CState} {r : Value × Option IRType × CState}
    (h : callCore name args types s = .ok r) : Steps s r.2.2 := by
  unfold callCore at h
  split at h
  · split at h
    · cases h
    · obtain ⟨⟨ret, s1⟩, hb, h⟩ := exceptBind_ok h
      simp only [pure, Except.pure] at h
      cases h
      exact steps_builtinPrintf hb
  · split at h
    · cases h
    · obtain ⟨⟨ret, s1⟩, hc, h⟩ := exceptBind_ok h
      simp only [pure, Except.pure] at h
      cases h
      exact steps_emitCall hc

theorem steps_convertString (str : String) (s : CState) :
    Steps s (convertString str s).2.2 := steps_of_shell rfl rfl rfl rfl

theorem steps_allocParams : ∀ (fn : String) (i : Nat) (ts : List IRType) (s : CState)
    (r : List Value × CState), allocParams fn i ts s = .ok r → Steps s r.2
  | _, _, [], _, _, h => by
    cases h
    exact steps_refl _
  | fn, i, t :: ts, s, r, h => by
    simp only [allocParams] at h
    obtain ⟨⟨p, s1⟩, h1, h⟩ := exceptBind_ok h
    obtain ⟨s2, h2, h⟩ := exceptBind_ok h
    obtain ⟨⟨ps, s3⟩, h3, h⟩ := exceptBind_ok h
    simp only [pure, Except.pure] at h
    cases h
    exact steps_trans (steps_emitAlloca h1) (steps_trans (steps_emitStore h2)
      (steps_allocParams fn (i + 1) ts s2 (ps, s3) h3))

theorem steps_shell_then {s s1 s2 : CState} (h : Steps s1 s2) (hb : s1.blocks = s.blocks)
    (hn : s1.nextBid = s.nextBid) (hbp : s1.breakpoints = s.breakpoints)
    (hc : s1.continues = s.continues) : Steps s s2 :=
  steps_trans (steps_of_shell hb hn hbp hc) h

theorem steps_then_shell {s s1 s2 : CState} (h : Steps s s1) (hb : s2.blocks = s1.blocks)
    (hn : s2.nextBid = s1.nextBid) (hbp : s2.breakpoints = s1.breakpoints)
    (hc : s2.continues = s1.continues) : Steps s s2 :=
  steps_trans h (steps_of_shell hb hn hbp hc)

theorem mono_of_shell {s s' : CState} (hb : s'.blocks = s.blocks)
    (hn : s'.nextBid = s.nextBid) : Mono s s' := by
  refine ⟨le_of_eq hn.symm, ?_, ?_, ?_⟩
  · intro bid
    refine ⟨[], ?_⟩
    rw [List.append_nil]
    unfold blockInstrs findBlock
    rw [hb]
  · intro bid _
    unfold findBlock
    rw [hb]
  · intro h b hmem
    rw [hn]
    exact h b (hb ▸ hmem)

theorem mono_shell_then {s s1 s2 : CState} (h : Mono s1 s2) (hb : s1.blocks = s.blocks)
    (hn : s1.nextBid = s.nextBid) : Mono s s2 :=
  mono_trans (mono_of_shell hb hn) h

theorem mono_then_shell {s s1 s2 : CState} (h : Mono s s1) (hb : s2.blocks = s1.blocks)
    (hn : s2.nextBid = s1.nextBid) : Mono s s2 :=
  mono_trans h (mono_of_shell hb hn)

/-- Deleting a block whose id is at or above the starting fresh-id
counter preserves the evolution relation: the deletion cannot hit a
pre-existing block. -/
theorem steps_then_delete {s s1 : CState} {k : Nat} (h : Steps s s1) (hk : s.nextBid ≤ k) :
    Steps s (deleteBlock s1 k) := by
  obtain ⟨⟨a, b, c, d⟩, e, g⟩ := h
  refine ⟨⟨a, fun bid => ?_, fun bid hblt => ?_, fun hB => ?_⟩, e, g⟩
  · obtain ⟨suf, hs⟩ := b bid
    exact ⟨suf, by rw [blockInstrs_deleteBlock, hs]⟩
  · rw [← c bid hblt]
    have hbk : bid ≠ k := Nat.ne_of_lt (lt_of_lt_of_le hblt hk)
    unfold findBlock deleteBlock
    simp only
    rw [findBlockIn_map _ (fun b => by by_cases hx : b.bid = k <;> simp [hx])]
    rcases hf : findBlockIn s1.blocks bid with _ | bb
    · rfl
    · have hbid : bb.bid = bid := findBlockIn_some_bid hf
      have hne : bb.bid ≠ k := by
        rw [hbid]
        exact hbk
      simp [BBlock.meta, hne]
  · have h1 := d hB
    intro b hb2
    simp only [deleteBlock, List.mem_map] at hb2
    obtain ⟨aB, haB, rfl⟩ := hb2
    have hlt := h1 aB haB
    have hbid : (if aB.bid = k then { aB with deleted := true } else aB).bid = aB.bid := by
      by_cases hx : aB.bid = k <;> simp [hx]
    show (if aB.bid = k then { aB with deleted := true } else aB).bid
        < (deleteBlock s1 k).nextBid
    rw [hbid]
    exact hlt

/-! Any successful compilation step only evolves the module monotonically
(`Mono`) and restores the break/continue target stacks. -/

mutual

theorem compileF_steps : ∀ (f : Nat) (n : Node) (s s' : CState),
    compileF f n s = .ok s' → Steps s s'
  | 0, _, _, _, h => by cases h
  | f + 1, .program stmts, s, s', h => by
    simp only [compileF] at h
    exact compileListF_steps f stmts s s' h
  | f + 1, .exprStmt e, s, s', h => by
    simp only [compileF] at h
    exact compileF_steps f e s s' h
  | f + 1, .blockStmt stmts, s, s', h => by
    simp only [compileF] at h
    exact compileListF_steps f stmts s s' h
  | f + 1, .letStmt name value vt, s, s', h => by
    simp only [compileF] at h
    rcases hres : resolveValueF f value s with e | ⟨v, t, s1⟩ <;>
      simp only [hres, bind, Except.bind] at h
    · cases h
    · have st1 : Steps s s1 := resolveValueF_steps f value s (v, t, s1) hres
      rcases hl : s1.env.lookup name with _ | ⟨ptr, pt⟩ <;> simp only [hl] at h
      · rcases t with _ | ty <;> simp only [] at h
        · cases h
        · rcases ha : emitAlloca ty s1 with e | ⟨ptr, s2⟩ <;>
            simp only [ha, Except.bind] at h
          · cases h
          · rcases hst : emitStore v ptr s2 with e | s3 <;>
              simp only [hst, Except.bind, pure, Except.pure] at h
            · cases h
            · cases h
              exact steps_then_shell (steps_trans st1 (steps_trans (steps_emitAlloca ha)
                (steps_emitStore hst))) rfl rfl rfl rfl
      · exact steps_trans st1 (steps_emitStore h)
  | f + 1, .returnStmt rv, s, s', h => by
    simp only [compileF] at h
    rcases hres : resolveValueF f rv s with e | ⟨v, t, s1⟩ <;>
      simp only [hres, bind, Except.bind] at h
    · cases h
    · exact steps_trans (resolveValueF_steps f rv s (v, t, s1) hres) (steps_emitTerm h)
  | f + 1, .assignStmt name rv, s, s', h => by
    simp only [compileF] at h
    rcases hres : resolveValueF f rv s with e | ⟨v, t, s1⟩ <;>
      simp only [hres, bind, Except.bind] at h
    · cases h
    · have st1 : Steps s s1 := resolveValueF_steps f rv s (v, t, s1) hres
      rcases hl : s1.env.lookup name with _ | ⟨ptr, pt⟩ <;>
        simp only [hl, pure, Except.pure] at h
      · cases h
        exact steps_then_shell st1 rfl rfl rfl rfl
      · exact steps_trans st1 (steps_emitStore h)
  | f + 1, .funcStmt name params returnType body, s, s', h => by
    simp only [compileF] at h
    rcases hm : params.mapM (fun p =>
        match typeMap p.2 with
        | none => Except.error PyErr.keyError
        | some t => pure t) with e | paramTypes <;>
      simp only [hm, bind, Except.bind] at h
    · cases h
    · rcases ht : typeMap returnType with _ | retT <;> simp only [ht] at h
      · cases h
      · split at h
        · cases h
        next ap hap =>
          split at h
          · cases h
          next s6 hb =>
            cases h
            have hR := steps_trans (steps_allocParams _ _ _ _ _ hap)
              (steps_shell_then (compileF_steps f body _ s6 hb) rfl rfl rfl rfl)
            have h1 := @steps_shell_then
              ((appendBlockIn { s with funcs := s.funcs ++ [name] } name (name ++ "_entry")).2)
              _ _ hR rfl rfl rfl rfl
            have h2 := steps_trans
              (steps_appendBlockIn { s with funcs := s.funcs ++ [name] } name (name ++ "_entry")) h1
            have h3 := @steps_shell_then s _ _ h2 rfl rfl rfl rfl
            exact steps_then_shell h3 rfl rfl rfl rfl
  | f + 1, .ifStmt cond consequence alternative, s, s', h => by
    simp only [compileF] at h
    rcases hres : resolveValueF f cond s with e | ⟨test, t, s1⟩ <;>
      simp only [hres, bind, Except.bind] at h
    · cases h
    · have st1 : Steps s s1 := resolveValueF_steps f cond s (test, t, s1) hres
      rcases alternative with _ | alt <;> simp only [bind, Except.bind] at h
      · -- no else arm: llvmlite if_then
        split at h
        · cases h
        next iB hiB =>
          split at h
          · cases h
          next nB hiN =>
            split at h
            · cases h
            next s4 h4 =>
              split at h
              · cases h
              next s6 hcons =>
                rcases hT : curTerminated s6 with _ | _ <;>
                  simp only [hT, pure, Except.pure] at h
                · -- arm fell through: a branch to the end block is emitted
                  split at h
                  · cases h
                  next s7 h7 =>
                    cases h
                    have st := steps_trans st1 (steps_trans (steps_appendBasicBlock hiB)
                      (steps_trans (steps_appendBasicBlock hiN) (steps_emitTerm h4)))
                    have stc := @steps_shell_then s4 _ _ (compileF_steps f consequence _ s6 hcons)
                      rfl rfl rfl rfl
                    exact steps_then_shell (steps_trans st (steps_trans stc (steps_emitTerm h7)))
                      rfl rfl rfl rfl
                · -- arm already terminated
                  cases h
                  have st := steps_trans st1 (steps_trans (steps_appendBasicBlock hiB)
                    (steps_trans (steps_appendBasicBlock hiN) (steps_emitTerm h4)))
                  have stc := @steps_shell_then s4 _ _ (compileF_steps f consequence _ s6 hcons)
                    rfl rfl rfl rfl
                  exact steps_then_shell (steps_trans st stc) rfl rfl rfl rfl
      · -- with else arm
        split at h
        · cases h
        next tB htB =>
          split at h
          · cases h
          next eB heB =>
            split at h
            · cases h
            next nB hnB =>
              split at h
              · cases h
              next s5 h5 =>
                split at h
                · cases h
                next s6 hcons =>
                  have st0 := steps_trans st1 (steps_trans
                    (@steps_shell_then s1 _ _ (steps_appendBasicBlock htB) rfl rfl rfl rfl)
                    (steps_trans (steps_appendBasicBlock heB)
                      (steps_trans (steps_appendBasicBlock hnB) (steps_emitTerm h5))))
                  have stc := @steps_shell_then s5 _ _ (compileF_steps f consequence _ s6 hcons)
                    rfl rfl rfl rfl
                  rcases hT : curTerminated s6 with _ | _ <;>
                    simp only [hT, pure, Except.pure, Bool.not_true, Bool.not_false,
                      Bool.false_or, Bool.true_or, Bool.or_false, Bool.or_true] at h
                  · -- then arm falls through: br endif emitted
                    split at h
                    · cases h
                    next s7 h7 =>
                      split at h
                      · cases h
                      next s8 halt =>
                        have sta := @steps_shell_then s7 _ _ (compileF_steps f alt _ s8 halt)
                          rfl rfl rfl rfl
                        have stAll := steps_trans st0 (steps_trans stc
                          (steps_trans (steps_emitTerm h7) sta))
                        rcases hE : curTerminated s8 with _ | _ <;>
                          simp only [hE, pure, Except.pure, Bool.not_true, Bool.not_false,
                            Bool.false_or, Bool.true_or, Bool.or_false, Bool.or_true] at h
                        · split at h
                          · cases h
                          next s9 h9 =>
                            cases h
                            exact steps_then_shell (steps_trans stAll (steps_emitTerm h9))
                              rfl rfl rfl rfl
                        · cases h
                          exact steps_then_shell stAll rfl rfl rfl rfl
                  · -- then arm terminated: no branch emitted for it
                    split at h
                    · cases h
                    next s8 halt =>
                      have sta := @steps_shell_then s6 _ _ (compileF_steps f alt _ s8 halt)
                        rfl rfl rfl rfl
                      have stAll := steps_trans st0 (steps_trans stc sta)
                      rcases hE : curTerminated s8 with _ | _ <;>
                        simp only [hE, pure, Except.pure, Bool.not_true, Bool.not_false,
                          Bool.false_or, Bool.true_or, Bool.or_false, Bool.or_true] at h
                      · split at h
                        · cases h
                        next s9 h9 =>
                          cases h
                          exact steps_then_shell (steps_trans stAll (steps_emitTerm h9))
                            rfl rfl rfl rfl
                      · -- both arms terminated: the endif block is deleted
                        cases h
                        obtain ⟨bidN, bN, hcurN, hfN, hNr⟩ := appendBasicBlock_ok hnB
                        have hN1 : nB.1 = eB.2.nextBid := by
                          rw [hNr]
                          rfl
                        have hle : s.nextBid ≤ nB.1 := by
                          rw [hN1]
                          exact le_trans st1.1.1
                            (le_trans (steps_appendBasicBlock htB).1.1
                              (steps_appendBasicBlock heB).1.1)
                        exact steps_then_delete stAll hle
  | f + 1, .whileStmt cond body, s, s', h => by
    simp only [compileF] at h
    rcases hres : resolveValueF f cond s with e | ⟨test, t, s1⟩ <;>
      simp only [hres, bind, Except.bind] at h
    · cases h
    · split at h
      · cases h
      next eB heB =>
        split at h
        · cases h
        next oB hoB =>
          split at h
          · cases h
          next s4 h4 =>
            split at h
            · cases h
            next s5b hbody =>
              split at h
              · cases h
              next rr hres2 =>
                split at h
                · cases h
                next s7 h7 =>
                  cases h
                  have st1 : Steps s s1 := resolveValueF_steps f cond s (test, t, s1) hres
                  have st2 := @steps_shell_then s1 _ _ (steps_appendBasicBlock heB) rfl rfl rfl rfl
                  have st3 := steps_trans st1 (steps_trans st2
                    (steps_trans (steps_appendBasicBlock hoB) (steps_emitTerm h4)))
                  have st4 := @steps_shell_then s4 _ _ (compileF_steps f body _ s5b hbody) rfl rfl rfl rfl
                  have st5 := steps_trans st3 (steps_trans st4
                    (steps_trans (resolveValueF_steps f cond s5b rr hres2) (steps_emitTerm h7)))
                  exact steps_then_shell st5 rfl rfl rfl rfl
  | f + 1, .breakStmt, s, s', h => by
    simp only [compileF] at h
    rcases hb : s.breakpoints with _ | ⟨b, rest⟩ <;> simp only [hb] at h
    · cases h
    · exact steps_emitTerm h
  | f + 1, .continueStmt, s, s', h => by
    simp only [compileF] at h
    rcases hb : s.continues with _ | ⟨b, rest⟩ <;> simp only [hb] at h
    · cases h
    · exact steps_emitTerm h
  | f + 1, .forStmt varDecl cond action body, s, s', h => by
    simp only [compileF, bind, Except.bind] at h
    split at h
    · cases h
    next s1 hdecl =>
      split at h
      · cases h
      next eB heB =>
        split at h
        · cases h
        next oB hoB =>
          split at h
          · cases h
          next s5 h5 =>
            split at h
            · cases h
            next s6 hbody =>
              split at h
              · cases h
              next s7 hact =>
                split at h
                · cases h
                next r8 hres8 =>
                  split at h
                  · cases h
                  next s9 h9 =>
                    have hb1 : s1.breakpoints = s.breakpoints :=
                      (compileF_steps f varDecl _ s1 hdecl).2.1
                    have hc1 : s1.continues = s.continues :=
                      (compileF_steps f varDecl _ s1 hdecl).2.2
                    have hb2 : eB.2.breakpoints = s1.breakpoints := (steps_appendBasicBlock heB).2.1
                    have hc2 : eB.2.continues = s1.continues := (steps_appendBasicBlock heB).2.2
                    have hb3 : oB.2.breakpoints = eB.2.breakpoints := (steps_appendBasicBlock hoB).2.1
                    have hc3 : oB.2.continues = eB.2.continues := (steps_appendBasicBlock hoB).2.2
                    have hb5 : s5.breakpoints = oB.1 :: oB.2.breakpoints := (steps_emitTerm h5).2.1
                    have hc5 : s5.continues = eB.1 :: oB.2.continues := (steps_emitTerm h5).2.2
                    have hb6 : s6.breakpoints = s5.breakpoints := (compileF_steps f body _ s6 hbody).2.1
                    have hc6 : s6.continues = s5.continues := (compileF_steps f body _ s6 hbody).2.2
                    have hb7 : s7.breakpoints = s6.breakpoints := (compileF_steps f action s6 s7 hact).2.1
                    have hc7 : s7.continues = s6.continues := (compileF_steps f action s6 s7 hact).2.2
                    have hb8 : r8.2.2.breakpoints = s7.breakpoints :=
                      (resolveValueF_steps f cond s7 r8 hres8).2.1
                    have hc8 : r8.2.2.continues = s7.continues :=
                      (resolveValueF_steps f cond s7 r8 hres8).2.2
                    have hb9 : s9.breakpoints = oB.1 :: s.breakpoints := by
                      rw [(steps_emitTerm h9).2.1, hb8, hb7, hb6, hb5, hb3, hb2, hb1]
                    have hc9 : s9.continues = eB.1 :: s.continues := by
                      rw [(steps_emitTerm h9).2.2, hc8, hc7, hc6, hc5, hc3, hc2, hc1]
                    rw [hb9, hc9] at h
                    cases h
                    have m1 : Mono s s1 :=
                      @mono_shell_then s _ _ (compileF_steps f varDecl _ s1 hdecl).1 rfl rfl
                    have m2 := @mono_shell_then s1 _ _ (steps_appendBasicBlock heB).1 rfl rfl
                    have m3 := (steps_appendBasicBlock hoB).1
                    have m4 := @mono_shell_then oB.2 _ _ (steps_emitTerm h5).1 rfl rfl
                    have m5 := @mono_shell_then s5 _ _ (compileF_steps f body _ s6 hbody).1 rfl rfl
                    have m6 := (compileF_steps f action s6 s7 hact).1
                    have m7 := (resolveValueF_steps f cond s7 r8 hres8).1
                    have m8 := (steps_emitTerm h9).1
                    have mAll : Mono s s9 := mono_trans m1 (mono_trans m2 (mono_trans m3
                      (mono_trans m4 (mono_trans m5 (mono_trans m6 (mono_trans m7 m8))))))
                    exact ⟨mono_then_shell mAll rfl rfl, rfl, rfl⟩
  | f + 1, .infixExpression l op r, s, s', h => by
    simp only [compileF] at h
    rcases hl : resolveValueF f l s with e | ⟨lv, lt, s1⟩ <;>
      simp only [hl, bind, Except.bind] at h
    · cases h
    · rcases hr : resolveValueF f r s1 with e | ⟨rv, rt, s2⟩ <;>
        simp only [hr, Except.bind] at h
      · cases h
      · rcases hi : infixCore op lv lt rv rt s2 with e | ⟨v, t, s3⟩ <;>
          simp only [hi, Except.bind, pure, Except.pure] at h
        · cases h
        · cases h
          exact steps_trans (resolveValueF_steps f l s (lv, lt, s1) hl)
            (steps_trans (resolveValueF_steps f r s1 (rv, rt, s2) hr)
              (steps_infixCore hi))
  | f + 1, .callExpression name args, s, s', h => by
    simp only [compileF] at h
    rcases ha : resolveArgsF f args s with e | ⟨vs, ts, s1⟩ <;>
      simp only [ha, bind, Except.bind] at h
    · cases h
    · rcases hc : callCore name vs ts s1 with e | ⟨v, t, s2⟩ <;>
        simp only [hc, Except.bind, pure, Except.pure] at h
      · cases h
      · cases h
        exact steps_trans (resolveArgsF_steps f args s (vs, ts, s1) ha) (steps_callCore hc)
  | f + 1, .integerLiteral n, s, s', h => by
    cases h
    exact steps_refl _
  | f + 1, .floatLiteral x, s, s', h => by
    cases h
    exact steps_refl _
  | f + 1, .identifierLiteral nm, s, s', h => by
    cases h
    exact steps_refl _
  | f + 1, .booleanLiteral b, s, s', h => by
    cases h
    exact steps_refl _
  | f + 1, .stringLiteral str, s, s', h => by
    cases h
    exact steps_refl _

theorem compileListF_steps : ∀ (f : Nat) (l : List Node) (s s' : CState),
    compileListF f l s = .ok s' → Steps s s'
  | 0, _, _, _, h => by cases h
  | _ + 1, [], s, s', h => by
    cases h
    exact steps_refl _
  | f + 1, n :: rest, s, s', h => by
    simp only [compileListF] at h
    rcases hc : compileF f n s with e | s1 <;> simp only [hc, bind, Except.bind] at h
    · cases h
    · exact steps_trans (compileF_steps f n s s1 hc) (compileListF_steps f rest s1 s' h)

theorem resolveValueF_steps : ∀ (f : Nat) (n : Node) (s : CState)
    (r : Value × Option IRType × CState), resolveValueF f n s = .ok r → Steps s r.2.2
  | 0, _, _, _, h => by cases h
  | f + 1, .integerLiteral n, s, r, h => by
    cases h
    exact steps_refl _
  | f + 1, .floatLiteral x, s, r, h => by
    cases h
    exact steps_refl _
  | f + 1, .identifierLiteral nm, s, r, h => by
    simp only [resolveValueF] at h
    rcases hl : s.env.lookup nm with _ | ⟨ptr, t⟩ <;> simp only [hl] at h
    · cases h
    · rcases he : emitLoad ptr s with e | ⟨v, s1⟩ <;>
        simp only [he, bind, Except.bind, pure, Except.pure] at h
      · cases h
      · cases h
        exact steps_emitLoad he
  | f + 1, .booleanLiteral b, s, r, h => by
    cases h
    exact steps_of_shell rfl rfl rfl rfl
  | f + 1, .stringLiteral str, s, r, h => by
    cases h
    exact steps_convertString str s
  | f + 1, .infixExpression l op rr, s, r, h => by
    simp only [resolveValueF] at h
    rcases hl : resolveValueF f l s with e | ⟨lv, lt, s1⟩ <;>
      simp only [hl, bind, Except.bind] at h
    · cases h
    · rcases hr : resolveValueF f rr s1 with e | ⟨rv, rt, s2⟩ <;>
        simp only [hr, Except.bind] at h
      · cases h
      · exact steps_trans (resolveValueF_steps f l s (lv, lt, s1) hl)
          (steps_trans (resolveValueF_steps f rr s1 (rv, rt, s2) hr)
            (steps_infixCore h))
  | f + 1, .callExpression name args, s, r, h => by
    simp only [resolveValueF] at h
    rcases ha : resolveArgsF f args s with e | ⟨vs, ts, s1⟩ <;>
      simp only [ha, bind, Except.bind] at h
    · cases h
    · exact steps_trans (resolveArgsF_steps f args s (vs, ts, s1) ha) (steps_callCore h)
  | f + 1, .program stmts, s, r, h => by cases h
  | f + 1, .exprStmt e, s, r, h => by cases h
  | f + 1, .letStmt a b c, s, r, h => by cases h
  | f + 1, .funcStmt a b c d, s, r, h => by cases h
  | f + 1, .blockStmt a, s, r, h => by cases h
  | f + 1, .returnStmt a, s, r, h => by cases h
  | f + 1, .assignStmt a b, s, r, h => by cases h
  | f + 1, .ifStmt a b c, s, r, h => by cases h
  | f + 1, .whileStmt a b, s, r, h => by cases h
  | f + 1, .breakStmt, s, r, h => by cases h
  | f + 1, .continueStmt, s, r, h => by cases h
  | f + 1, .forStmt a b c d, s, r, h => by cases h

theorem resolveArgsF_steps : ∀ (f : Nat) (l : List Node) (s : CState)
    (r : List Value × List (Option IRType) × CState),
    resolveArgsF f l s = .ok r → Steps s r.2.2
  | 0, _, _, _, h => by cases h
  | _ + 1, [], s, r, h => by
    cases h
    exact steps_refl _
  | f + 1, n :: rest, s, r, h => by
    simp only [resolveArgsF] at h
    rcases hv : resolveValueF f n s with e | ⟨v, t, s1⟩ <;>
      simp only [hv, bind, Except.bind] at h
    · cases h
    · rcases ha : resolveArgsF f rest s1 with e | ⟨vs, ts, s2⟩ <;>
        simp only [ha, Except.bind, pure, Except.pure] at h
      · cases h
      · cases h
        exact steps_trans (resolveValueF_steps f n s (v, t, s1) hv)
          (resolveArgsF_steps f rest s1 (vs, ts, s2) ha)

end

/-- C3 (amended): break and continue branch unconditionally to the top
of the break-target/continue-target stacks (raising with empty stacks),
and only the **for** statement maintains those stacks: it pushes its
exit and entry blocks before compiling the body — so break/continue in
the body target this innermost for loop — and pops both afterwards,
restoring the caller's stacks.  While loops push nothing (see the
counterexample), so the innermost *for* loop is targeted regardless of
intervening while loops. -/
theorem c3_break_continue_target_for_stack :
    (∀ (f : Nat) (s : CState) (b : Nat) (rest : List Nat),
       s.breakpoints = b :: rest →
       compileF (f + 1) .breakStmt s = emitTerm (.br b) s) ∧
    (∀ (f : Nat) (s : CState) (c : Nat) (rest : List Nat),
       s.continues = c :: rest →
       compileF (f + 1) .continueStmt s = emitTerm (.br c) s) ∧
    (∀ (f : Nat) (s : CState),
       s.breakpoints = [] → compileF (f + 1) .breakStmt s = .error .indexError) ∧
    (∀ (f : Nat) (s : CState),
       s.continues = [] → compileF (f + 1) .continueStmt s = .error .indexError) ∧
    (∀ (f : Nat) (varDecl cond action body : Node) (s s' : CState),
       compileF (f + 1) (.forStmt varDecl cond action body) s = .ok s' →
       s'.breakpoints = s.breakpoints ∧ s'.continues = s.continues ∧
       ∃ (entryB othB : Nat) (sB sB' : CState),
         sB.breakpoints = othB :: s.breakpoints ∧
         sB.continues = entryB :: s.continues ∧
         sB.cur = some entryB ∧
         compileF f body sB = .ok sB' ∧
         sB'.breakpoints = othB :: s.breakpoints ∧
         sB'.continues = entryB :: s.continues) := by
  refine ⟨?_, ?_, ?_, ?_, ?_⟩
  · intro f s b rest hb
    simp only [compileF, hb]
  · intro f s c rest hc
    simp only [compileF, hc]
  · intro f s hb
    simp only [compileF, hb]
  · intro f s hc
    simp only [compileF, hc]
  · intro f varDecl cond action body s s' h
    refine ⟨(compileF_steps (f + 1) _ s s' h).2.1, (compileF_steps (f + 1) _ s s' h).2.2, ?_⟩
    simp only [compileF, bind, Except.bind] at h
    split at h
    · cases h
    next s1 hdecl =>
      split at h
      · cases h
      next eB heB =>
        split at h
        · cases h
        next oB hoB =>
          split at h
          · cases h
          next s5 h5 =>
            split at h
            · cases h
            next s6 hbody =>
              have hb1 : s1.breakpoints = s.breakpoints :=
                (compileF_steps f varDecl _ s1 hdecl).2.1
              have hc1 : s1.continues = s.continues :=
                (compileF_steps f varDecl _ s1 hdecl).2.2
              have hb2 : eB.2.breakpoints = s1.breakpoints := (steps_appendBasicBlock heB).2.1
              have hc2 : eB.2.continues = s1.continues := (steps_appendBasicBlock heB).2.2
              have hb3 : oB.2.breakpoints = eB.2.breakpoints := (steps_appendBasicBlock hoB).2.1
              have hc3 : oB.2.continues = eB.2.continues := (steps_appendBasicBlock hoB).2.2
              have hb5 : s5.breakpoints = oB.1 :: oB.2.breakpoints := (steps_emitTerm h5).2.1
              have hc5 : s5.continues = eB.1 :: oB.2.continues := (steps_emitTerm h5).2.2
              have hb6 : s6.breakpoints = s5.breakpoints := (compileF_steps f body _ s6 hbody).2.1
              have hc6 : s6.continues = s5.continues := (compileF_steps f body _ s6 hbody).2.2
              refine ⟨eB.1, oB.1, { s5 with cur := some eB.1 }, s6, ?_, ?_, rfl, hbody, ?_, ?_⟩
              · show s5.breakpoints = oB.1 :: s.breakpoints
                rw [hb5, hb3, hb2, hb1]
              · show s5.continues = eB.1 :: s.continues
                rw [hc5, hc3, hc2, hc1]
              · rw [hb6, hb5, hb3, hb2, hb1]
              · rw [hc6, hc5, hc3, hc2, hc1]

/-- C3 witness: a break with target stack `[7]` branches to block 7, and
the concrete loop `for (let i: int = 0; i < 3; i = i + 1) { }` compiled
in a function state restores the stacks and compiles its body under
pushed stacks. -/
theorem c3_break_continue_witness :
    compileF 1 .breakStmt { fnState with breakpoints := [7], continues := [8] }
      = emitTerm (.br 7) { fnState with breakpoints := [7], continues := [8] } ∧
    ∃ s', compileF 16 forNodeC3 fnState = .ok s' ∧
      (s'.breakpoints = fnState.breakpoints ∧ s'.continues = fnState.continues ∧
       ∃ (entryB othB : Nat) (sB sB' : CState),
         sB.breakpoints = othB :: fnState.breakpoints ∧
         sB.continues = entryB :: fnState.continues ∧
         sB.cur = some entryB ∧
         compileF 15 (.blockStmt []) sB = .ok sB' ∧
         sB'.breakpoints = othB :: fnState.breakpoints ∧
         sB'.continues = entryB :: fnState.continues) :=
  ⟨c3_break_continue_target_for_stack.1 0 _ 7 [] rfl,
   ⟨_, rfl, c3_break_continue_target_for_stack.2.2.2.2 15
      (.letStmt "i" (.integerLiteral 0) "int")
      (.infixExpression (.identifierLiteral "i") "<" (.integerLiteral 3))
      (.assignStmt "i" (.infixExpression (.identifierLiteral "i") "+" (.integerLiteral 1)))
      (.blockStmt []) fnState _ rfl⟩⟩


end Frog

namespace Frog

theorem mem_blockInstrs_of_steps {x : Instr} {bid : Nat} {sA sB : CState}
    (hst : Steps sA sB) (hm : x ∈ blockInstrs sA bid) : x ∈ blockInstrs sB bid := by
  obtain ⟨suf, hs⟩ := hst.1.2.1 bid
  rw [hs]
  exact List.mem_append_left _ hm

theorem deleted_of_meta {s : CState} {bid : Nat} {nm fn : String} {d : Bool}
    (h : (findBlock s bid).map BBlock.meta = some (nm, fn, d)) :
    (findBlock s bid).map BBlock.deleted = some d := by
  rcases hf : findBlock s bid with _ | b
  · rw [hf] at h
    cases h
  · rw [hf] at h
    simp only [Option.map_some', Option.some.injEq, BBlock.meta, Prod.mk.injEq] at h
    simp [h.2.2]

theorem cur_isSome_of_curTerminated {s : CState} (h : curTerminated s = true) :
    ∃ bid b, s.cur = some bid ∧ findBlock s bid = some b ∧ b.isTerminated = true := by
  unfold curTerminated curBlock at h
  rcases hc : s.cur with _ | bid
  · rw [hc] at h
    simp [Option.bind] at h
  · rw [hc] at h
    simp only [Option.bind] at h
    rcases hf : findBlock s bid with _ | b
    · rw [hf] at h
      simp at h
    · rw [hf] at h
      exact ⟨bid, b, rfl, hf, h⟩

end Frog

namespace Frog

/-- C2: for every if-statement with an alternative ... -/
theorem c2_if_else_merge_block (f : Nat) (cond consequence alt : Node) (s s' : CState)
    (hWF : BidsBelow s)
    (h : compileF (f + 1) (.ifStmt cond consequence (some alt)) s = .ok s') :
    ∃ (test : Value) (ty : Option IRType) (s1 : CState) (thenB elseB endifB : Nat)
      (sThen sElse s6 s8 : CState) (thenEnd elseEnd : Nat),
      resolveValueF f cond s = .ok (test, ty, s1) ∧
      thenB = s1.nextBid ∧ elseB = s1.nextBid + 1 ∧ endifB = s1.nextBid + 2 ∧
      sThen.cur = some thenB ∧ compileF f consequence sThen = .ok s6 ∧
      sElse.cur = some elseB ∧ compileF f alt sElse = .ok s8 ∧
      s6.cur = some thenEnd ∧ s8.cur = some elseEnd ∧
      (curTerminated s6 = false → Instr.br endifB ∈ blockInstrs s' thenEnd) ∧
      (curTerminated s8 = false → Instr.br endifB ∈ blockInstrs s' elseEnd) ∧
      (curTerminated s6 = true → curTerminated s8 = true →
        (findBlock s' endifB).map BBlock.deleted = some true) ∧
      (curTerminated s6 = false ∨ curTerminated s8 = false →
        s'.cur = some endifB ∧ (findBlock s' endifB).map BBlock.deleted = some false) := by
  simp only [compileF] at h
  rcases hres : resolveValueF f cond s with e | ⟨test, ty, s1⟩ <;>
    simp only [hres, bind, Except.bind] at h
  · cases h
  · have st1 : Steps s s1 := resolveValueF_steps f cond s (test, ty, s1) hres
    split at h
    · cases h
    next tB htB =>
      split at h
      · cases h
      next eB heB =>
        split at h
        · cases h
        next nB hnB =>
          split at h
          · cases h
          next s5 h5 =>
            split at h
            · cases h
            next s6 hcons =>
              -- identities of the three created blocks
              obtain ⟨bidT, bT, hcurT, hfT, hTr⟩ := appendBasicBlock_ok htB
              obtain ⟨bidE, bE, hcurE, hfE, hEr⟩ := appendBasicBlock_ok heB
              obtain ⟨bidN, bN, hcurN, hfN, hNr⟩ := appendBasicBlock_ok hnB
              have htB1 : tB.1 = s1.nextBid := by
                rw [hTr]
                rfl
              have heB1 : eB.1 = s1.nextBid + 1 := by
                rw [hEr, hTr]
                rfl
              have hnB1 : nB.1 = s1.nextBid + 2 := by
                rw [hNr, hEr, hTr]
                rfl
              -- well-formed ids up to the creation point
              have hWF1 : BidsBelow s1 := st1.1.2.2.2 hWF
              have hWFt : BidsBelow tB.2 := (steps_appendBasicBlock htB).1.2.2.2 hWF1
              have hWFe : BidsBelow eB.2 := (steps_appendBasicBlock heB).1.2.2.2 hWFt
              -- the endif block is created live
              have hfresh : findBlock nB.2 nB.1
                  = some ⟨eB.2.nextBid, "if_endif_" ++ toString (s1.counter + 1),
                          bN.fn, [], false⟩ := by
                rw [hNr]
                show findBlockIn (eB.2.blocks ++ [⟨eB.2.nextBid, _, bN.fn, [], false⟩])
                    eB.2.nextBid = _
                rw [findBlockIn_append, findBlockIn_none_of_lt hWFe]
                simp [findBlockIn]
              have hm5 : (findBlock s5 nB.1).map BBlock.meta
                  = some ("if_endif_" ++ toString (s1.counter + 1), bN.fn, false) := by
                obtain ⟨bid5, b5, hcur5, hfb5, ht5, h5e⟩ := emitTerm_ok h5
                rw [h5e, meta_appendInstr, hfresh]
                rfl
              have hlt5 : nB.1 < s5.nextBid := by
                obtain ⟨bid5, b5, hcur5, hfb5, ht5, h5e⟩ := emitTerm_ok h5
                rw [h5e]
                show nB.1 < nB.2.nextBid
                rw [hNr]
                exact Nat.lt_succ_self _
              have stc : Steps { s5 with cur := some tB.1 } s6 :=
                compileF_steps f consequence _ s6 hcons
              have hlt6 : nB.1 < s6.nextBid := lt_of_lt_of_le hlt5 stc.1.1
              have hm6 : (findBlock s6 nB.1).map BBlock.meta
                  = some ("if_endif_" ++ toString (s1.counter + 1), bN.fn, false) := by
                rw [stc.1.2.2.1 nB.1 hlt5]
                exact hm5
              rcases hT : curTerminated s6 with _ | _ <;>
                simp only [hT, pure, Except.pure, Bool.not_false, Bool.not_true,
                  Bool.true_or, Bool.false_or] at h
              · -- then arm falls through: br endif, then always the cursor path
                split at h
                · cases h
                next s7 h7 =>
                  split at h
                  · cases h
                  next s8 halt =>
                    obtain ⟨bid7, b7, hcur7, hfb7, ht7, h7e⟩ := emitTerm_ok h7
                    have hmem7 : Instr.br nB.1 ∈ blockInstrs s7 bid7 := by
                      rw [h7e, blockInstrs_appendInstr_found hfb7]
                      exact List.mem_append_right _ (List.mem_singleton.2 rfl)
                    have hm7 : (findBlock s7 nB.1).map BBlock.meta
                        = some ("if_endif_" ++ toString (s1.counter + 1), bN.fn, false) := by
                      rw [h7e, meta_appendInstr]
                      exact hm6
                    have hlt7 : nB.1 < s7.nextBid := by
                      rw [h7e]
                      exact hlt6
                    have stAlt : Steps { s7 with cur := some eB.1 } s8 :=
                      compileF_steps f alt _ s8 halt
                    have hmem8 : Instr.br nB.1 ∈ blockInstrs s8 bid7 :=
                      mem_blockInstrs_of_steps stAlt hmem7
                    have hm8 : (findBlock s8 nB.1).map BBlock.meta
                        = some ("if_endif_" ++ toString (s1.counter + 1), bN.fn, false) := by
                      rw [stAlt.1.2.2.1 nB.1 hlt7]
                      exact hm7
                    rcases hE : curTerminated s8 with _ | _ <;>
                      simp only [hE, pure, Except.pure] at h
                    · -- else arm also falls through: second br endif
                      split at h
                      · cases h
                      next s9 h9 =>
                        cases h
                        obtain ⟨bid9, b9, hcur9, hfb9, ht9, h9e⟩ := emitTerm_ok h9
                        have hmem9 : Instr.br nB.1 ∈ blockInstrs s9 bid7 := by
                          rw [h9e]
                          obtain ⟨suf, hs⟩ := blockInstrs_appendInstr s8 bid9 (.br nB.1) bid7
                          rw [hs]
                          exact List.mem_append_left _ hmem8
                        have hmem9b : Instr.br nB.1 ∈ blockInstrs s9 bid9 := by
                          rw [h9e, blockInstrs_appendInstr_found hfb9]
                          exact List.mem_append_right _ (List.mem_singleton.2 rfl)
                        have hm9 : (findBlock s9 nB.1).map BBlock.meta
                            = some ("if_endif_" ++ toString (s1.counter + 1), bN.fn, false) := by
                          rw [h9e, meta_appendInstr]
                          exact hm8
                        exact ⟨test, ty, s1, tB.1, eB.1, nB.1, { s5 with cur := some tB.1 },
                          { s7 with cur := some eB.1 }, s6, s8, bid7, bid9,
                          rfl, htB1, heB1, hnB1, rfl, hcons, rfl, halt, hcur7, hcur9,
                          fun _ => hmem9, fun _ => hmem9b,
                          fun hc _ => Bool.noConfusion (hT ▸ hc),
                          fun _ => ⟨rfl, deleted_of_meta hm9⟩⟩
                    · -- else arm terminated: no second branch
                      cases h
                      obtain ⟨bidE8, b8, hcur8, hfb8, ht8⟩ := cur_isSome_of_curTerminated hE
                      exact ⟨test, ty, s1, tB.1, eB.1, nB.1, { s5 with cur := some tB.1 },
                        { s7 with cur := some eB.1 }, s6, s8, bid7, bidE8,
                        rfl, htB1, heB1, hnB1, rfl, hcons, rfl, halt, hcur7, hcur8,
                        fun _ => hmem8, fun hc => Bool.noConfusion (hE ▸ hc),
                        fun hc _ => Bool.noConfusion (hT ▸ hc),
                        fun _ => ⟨rfl, deleted_of_meta hm8⟩⟩
              · -- then arm terminated: no branch for it
                split at h
                · cases h
                next s8 halt =>
                  obtain ⟨bidT6, b6, hcur6, hfb6, ht6⟩ := cur_isSome_of_curTerminated hT
                  have stAlt : Steps { s6 with cur := some eB.1 } s8 :=
                    compileF_steps f alt _ s8 halt
                  have hm8 : (findBlock s8 nB.1).map BBlock.meta
                      = some ("if_endif_" ++ toString (s1.counter + 1), bN.fn, false) := by
                    rw [stAlt.1.2.2.1 nB.1 hlt6]
                    exact hm6
                  rcases hE : curTerminated s8 with _ | _ <;>
                    simp only [hE, pure, Except.pure] at h
                  · -- else arm falls through: br endif, cursor path
                    split at h
                    · cases h
                    next s9 h9 =>
                      cases h
                      obtain ⟨bid9, b9, hcur9, hfb9, ht9, h9e⟩ := emitTerm_ok h9
                      have hmem9b : Instr.br nB.1 ∈ blockInstrs s9 bid9 := by
                        rw [h9e, blockInstrs_appendInstr_found hfb9]
                        exact List.mem_append_right _ (List.mem_singleton.2 rfl)
                      have hm9 : (findBlock s9 nB.1).map BBlock.meta
                          = some ("if_endif_" ++ toString (s1.counter + 1), bN.fn, false) := by
                        rw [h9e, meta_appendInstr]
                        exact hm8
                      exact ⟨test, ty, s1, tB.1, eB.1, nB.1, { s5 with cur := some tB.1 },
                        { s6 with cur := some eB.1 }, s6, s8, bidT6, bid9,
                        rfl, htB1, heB1, hnB1, rfl, hcons, rfl, halt, hcur6, hcur9,
                        fun hc => Bool.noConfusion (hT ▸ hc), fun _ => hmem9b,
                        fun _ hc => Bool.noConfusion (hE ▸ hc),
                        fun _ => ⟨rfl, deleted_of_meta hm9⟩⟩
                  · -- both arms terminated: the endif block is deleted
                    cases h
                    obtain ⟨bidE8, b8, hcur8, hfb8, ht8⟩ := cur_isSome_of_curTerminated hE
                    rcases hf8 : findBlock s8 nB.1 with _ | b8n
                    · rw [hf8] at hm8
                      cases hm8
                    · refine ⟨test, ty, s1, tB.1, eB.1, nB.1, { s5 with cur := some tB.1 },
                        { s6 with cur := some eB.1 }, s6, s8, bidT6, bidE8,
                        rfl, htB1, heB1, hnB1, rfl, hcons, rfl, halt, hcur6, hcur8,
                        fun hc => Bool.noConfusion (hT ▸ hc),
                        fun hc => Bool.noConfusion (hE ▸ hc),
                        fun _ _ => ?_,
                        fun hor => ?_⟩
                      · rw [findBlock_deleteBlock_self hf8]
                        rfl
                      · rcases hor with hc | hc
                        · exact Bool.noConfusion (hT ▸ hc)
                        · exact Bool.noConfusion (hE ▸ hc)

/-- Concrete run backing the if/else merge-block theorem: compiling
`if true { return 1; } else { return 0; }` inside a function body
satisfies its hypotheses and exhibits the described block structure. -/
theorem c2_if_else_merge_block_witness :
    ∃ (s' : CState),
      compileF 6 (.ifStmt (.booleanLiteral true) (.returnStmt (.integerLiteral 1))
        (some (.returnStmt (.integerLiteral 0)))) fnState = Except.ok s' ∧
      ∃ (test : Value) (ty : Option IRType) (s1 : CState) (thenB elseB endifB : Nat)
        (sThen sElse s6 s8 : CState) (thenEnd elseEnd : Nat),
        resolveValueF 5 (.booleanLiteral true) fnState = .ok (test, ty, s1) ∧
        thenB = s1.nextBid ∧ elseB = s1.nextBid + 1 ∧ endifB = s1.nextBid + 2 ∧
        sThen.cur = some thenB ∧
        compileF 5 (.returnStmt (.integerLiteral 1)) sThen = .ok s6 ∧
        sElse.cur = some elseB ∧
        compileF 5 (.returnStmt (.integerLiteral 0)) sElse = .ok s8 ∧
        s6.cur = some thenEnd ∧ s8.cur = some elseEnd ∧
        (curTerminated s6 = false → Instr.br endifB ∈ blockInstrs s' thenEnd) ∧
        (curTerminated s8 = false → Instr.br endifB ∈ blockInstrs s' elseEnd) ∧
        (curTerminated s6 = true → curTerminated s8 = true →
          (findBlock s' endifB).map BBlock.deleted = some true) ∧
        (curTerminated s6 = false ∨ curTerminated s8 = false →
          s'.cur = some endifB ∧ (findBlock s' endifB).map BBlock.deleted = some false) := by
  refine ⟨_, rfl, ?_⟩
  exact c2_if_else_merge_block 5 (.booleanLiteral true) (.returnStmt (.integerLiteral 1))
    (.returnStmt (.integerLiteral 0)) fnState _
    (by intro b hb; simp [fnState] at hb; subst hb; decide) rfl

end Frog
